import Mathlib

/-!
Shallow embedding of `semgrep/evaluation.py`: the boolean rule-expression
evaluator over pattern-match ranges, the metavariable comparison/regex
filters, and the message/fix interpolation helpers.  Python `Set[Range]`
values are modelled as `List Range` with membership up to the Python
`Range.__eq__` (which compares only the interval endpoints, per the spec's
data model).  Representative handling mirrors CPython: building a set
keeps the first-inserted representative of each equality class, while
`intersection`/`intersection_update` iterate the argument (a list, or the
smaller set — the evaluator's child outputs never exceed the running set)
and so adopt the *argument's* representative.  This matters because the
metavariable-scoped leaves consult the surviving representative's bound
variable names, which `Range.__eq__` ignores.
-/

namespace Semgrep

instance {ε α : Type} [DecidableEq ε] [DecidableEq α] : DecidableEq (Except ε α) :=
  fun x y =>
    match x, y with
    | .ok a, .ok b => decidable_of_iff (a = b) (by simp)
    | .error a, .error b => decidable_of_iff (a = b) (by simp)
    | .ok _, .error _ => isFalse (by simp)
    | .error _, .ok _ => isFalse (by simp)

/-- `Range`: a source interval plus the metavariable names bound within it.
Python equality and hashing use only `start`/`end` (spec §3); `end` is
renamed `stop` because `end` is a Lean keyword. -/
structure Range where
  start : Nat
  stop : Nat
  vars : List String
deriving DecidableEq

/-- Python `Range.__eq__`: two ranges are equal iff start and end coincide. -/
def rangeEq (a b : Range) : Bool :=
  a.start == b.start && a.stop == b.stop

/-- Modelled from the spec: `Range.is_enclosing_or_eq` from
`semgrep_types.py` (not under `src/`): `A` encloses-or-equals `B` iff
`A.start <= B.start && B.end <= A.end`. -/
def Range.is_enclosing_or_eq (a b : Range) : Bool :=
  a.start ≤ b.start && b.stop ≤ a.stop

/-- Modelled from the spec: `Range.is_range_enclosing_or_eq` from
`semgrep_types.py` (not under `src/`); same enclosure test as
`is_enclosing_or_eq` (spec §3 defines a single `encloses_or_equals`). -/
def Range.is_range_enclosing_or_eq (a b : Range) : Bool :=
  a.start ≤ b.start && b.stop ≤ a.stop

/-- Membership of a range in a Python set-of-ranges (interval equality). -/
def memB (x : Range) (s : List Range) : Bool :=
  s.any (fun r => rangeEq x r)

/-- Building a Python set from a list of ranges: the first-inserted
representative of each interval is kept. -/
def dedupR (l : List Range) : List Range :=
  l.foldl (fun acc r => if memB r acc then acc else acc ++ [r]) []

/-- Python `s.intersection(t)` / `s.intersection_update(t)` on range sets.
CPython iterates the argument — `t` is a list at the `AND`/`REGEX` and
`AND_EITHER` call sites, and at the `AND_ALL` site a set no larger than
`s` — checking membership in `s` and adding the *iterated* element, so
the result keeps `t`'s representative of each interval class (first
occurrence wins, as in set construction). -/
def interR (s t : List Range) : List Range :=
  dedupR (t.filter (fun r => memB r s))

/-- Python `s.difference(t)` on range sets. -/
def diffR (s t : List Range) : List Range :=
  s.filter (fun r => !(memB r t))

/-- `PatternMatch`: pattern id, range, and metavariable bindings.  A binding
maps the metavariable name to its bound source text ("abstract content");
modelled from the spec for `pattern_match.py` (not under `src/`). -/
structure PatternMatch where
  id : String
  range : Range
  metavars : List (String × String)
deriving DecidableEq

/-- `pm.get_metavariable_value(name)` as a partial lookup: `none` models the
Python `KeyError` on an absent binding. -/
def PatternMatch.getMetavariableValue (pm : PatternMatch) (name : String) :
    Option String :=
  List.lookup name pm.metavars

/-- The `pattern_ids_to_pattern_matches` dictionary, in insertion order. -/
abbrev Registry := List (String × List PatternMatch)

/-- Python `dict.get(pid, [])`. -/
def Registry.get (G : Registry) (pid : String) : List PatternMatch :=
  (List.lookup pid G).getD []

/-- `flatten(pattern_ids_to_pattern_matches.values())`. -/
def Registry.flat (G : Registry) : List PatternMatch :=
  (G.map Prod.snd).flatten

/-- `group_by_pattern_id`: stable grouping of matches by pattern id. -/
def group_by_pattern_id (pms : List PatternMatch) : Registry :=
  pms.foldl
    (fun by_id pm =>
      if (List.lookup pm.id by_id).isSome then
        by_id.map (fun kv => if kv.1 = pm.id then (kv.1, kv.2 ++ [pm]) else kv)
      else
        by_id ++ [(pm.id, [pm])])
    []

/-- The operator tags of `semgrep_types.OPERATORS`. -/
inductive Operator where
  | AND
  | AND_NOT
  | AND_INSIDE
  | AND_NOT_INSIDE
  | WHERE_PYTHON
  | REGEX
  | NOT_REGEX
  | METAVARIABLE_REGEX
  | METAVARIABLE_COMPARISON
  | AND_EITHER
  | AND_ALL
deriving DecidableEq

/-- `OPERATORS_WITH_CHILDREN = [AND_EITHER, AND_ALL]`. -/
def withChildren (o : Operator) : Bool :=
  match o with
  | .AND_EITHER => true
  | .AND_ALL => true
  | _ => false

/-- The structured operand of the metavariable-scoped operators: a mapping
with keys `metavariable`, `regex`/`comparison`, `strip`, `base`. -/
structure OperandMap where
  metavariable : String
  regex : String
  comparison : String
  strip : Option Bool
  base : Option Nat
deriving DecidableEq

/-- `expression.operand`: a raw string or a structured mapping. -/
inductive Operand where
  | str (s : String)
  | map (m : OperandMap)
deriving DecidableEq

/-- `BooleanRuleExpression`: operator, optional pattern id, optional
operand, optional children. -/
inductive BooleanRuleExpression where
  | mk (operator : Operator) (pattern_id : Option String)
      (operand : Option Operand)
      (children : Option (List BooleanRuleExpression))

abbrev BRE := BooleanRuleExpression

def BRE.operator : BRE → Operator
  | .mk o _ _ _ => o

def BRE.pattern_id : BRE → Option String
  | .mk _ p _ _ => p

def BRE.operand : BRE → Option Operand
  | .mk _ _ o _ => o

def BRE.children : BRE → Option (List BRE)
  | .mk _ _ _ c => c

/-- The fatal errors raised by `evaluation.py`: `SemgrepError` carrying an
optional exit code, `UnknownOperatorError`, and an uncaught Python
`KeyError` from a dictionary access. -/
inductive EvalError where
  | semgrepError (code : Option Nat)
  | unknownOperatorError
  | keyError
deriving DecidableEq

/-- Modelled from the spec: `semgrep.error.NEED_ARBITRARY_CODE_EXEC_EXIT_CODE`
(not under `src/`), the dedicated exit code that distinguishes the
`ExecutionNotAllowed` failure from every other fatal error kind. -/
def NEED_ARBITRARY_CODE_EXEC_EXIT_CODE : Nat := 2

/-- Modelled from the spec: `semgrep.constants.RCE_RULE_FLAG` (not under
`src/`), the flag key gating arbitrary-code execution. -/
def RCE_RULE_FLAG : String := "--dangerously-allow-arbitrary-code-execution-from-rules"

/-- The `flags` dictionary (`Optional[Dict[str, Any]]`), holding booleans. -/
abbrev Flags := Option (List (String × Bool))

/-- Outcome of running the user's where-python code via Python `exec`:
a produced value that is a boolean, a produced non-boolean value, a
`KeyError`, or any other exception. -/
inductive PyResult where
  | val (b : Bool)
  | nonBoolean
  | raisedKeyError
  | raisedOther
deriving DecidableEq

/-- Host-language facilities used by the evaluator and abstracted as
oracles: Python `exec` of a where-python expression with the metavariable
contents in scope, and Python `re.match` (left-anchored) truthiness. -/
structure Ctx where
  pyExec : String → List (String × String) → PyResult
  reMatch : String → String → Bool

/-- One `steps_for_debugging` record. -/
structure Step where
  filter : String
  pattern_id : Option String
  ranges : List Range
  metavar_ranges : List (String × List String)
deriving DecidableEq

/-- The parts of `Rule` consumed by the interpolation helpers. -/
structure Rule where
  message : String
  fix : Option String
deriving DecidableEq

/-- The quote characters stripped by `content.strip("\"'`")` (the backtick
is written by code point). -/
def isQuoteChar (c : Char) : Bool :=
  c = '"' || c = '\'' || c = Char.ofNat 96

/-- Python `content.strip("\"'`")`: drop the quote characters from both
ends. -/
def pyStrip (s : String) : String :=
  ⟨((s.toList.dropWhile isQuoteChar).reverse.dropWhile isQuoteChar).reverse⟩

/-- Value of a digit character for Python `int(s, base)` parsing. -/
def digitVal (c : Char) : Option Nat :=
  if '0' ≤ c ∧ c ≤ '9' then some (c.toNat - '0'.toNat)
  else if 'a' ≤ c ∧ c ≤ 'z' then some (c.toNat - 'a'.toNat + 10)
  else if 'A' ≤ c ∧ c ≤ 'Z' then some (c.toNat - 'A'.toNat + 10)
  else none

/-- Digit-string value in a base, or `none` when some character is not a
digit of that base (or the string is empty). -/
def digitsVal (base : Nat) : List Char → Option Nat
  | [] => none
  | [c] => match digitVal c with
    | some v => if v < base then some v else none
    | none => none
  | c :: rest => match digitVal c, digitsVal base rest with
    | some v, some acc => if v < base then some (v * base ^ rest.length + acc) else none
    | _, _ => none

/-- An exact Python number: an unnormalized fraction with positive
denominator (`den = 1` for integers, a power of ten for finite decimal
floats).  Kept unnormalized so that all operations are plain integer
arithmetic. -/
structure PyNum where
  num : Int
  den : Nat
deriving DecidableEq

def PyNum.ofInt (n : Int) : PyNum := ⟨n, 1⟩

def PyNum.neg (a : PyNum) : PyNum := ⟨-a.num, a.den⟩

/-- Exact comparison of two fractions with positive denominators. -/
def pyNumLt (a b : PyNum) : Bool :=
  a.num * (b.den : Int) < b.num * (a.den : Int)

def pyNumEq (a b : PyNum) : Bool :=
  a.num * (b.den : Int) == b.num * (a.den : Int)

/-- Models Python `int(content, base)` on optionally-signed digit strings
(the subset exercised by the evaluator; whitespace, underscores and base
prefixes are not modelled).  `none` models the `ValueError`. -/
def pyInt (base : Nat) (s : String) : Option Int :=
  match s.toList with
  | '-' :: rest => (digitsVal base rest).map (fun n => -(n : Int))
  | '+' :: rest => (digitsVal base rest).map (fun n => (n : Int))
  | l => (digitsVal base l).map (fun n => (n : Int))

/-- Splitting a character list at every occurrence of a separator. -/
def splitOnCharL (sep : Char) : List Char → List (List Char)
  | [] => [[]]
  | c :: rest =>
    match splitOnCharL sep rest with
    | [] => [[c]]
    | h :: t => if c = sep then [] :: h :: t else (c :: h) :: t

/-- Single-character `str.split`. -/
def splitOnChar (sep : Char) (s : String) : List String :=
  (splitOnCharL sep s.toList).map (fun l => ⟨l⟩)

/-- Models Python `float(content)` on optionally-signed decimal strings
`digits[.digits]` as an exact fraction (the subset exercised by the
evaluator; exponents and special values are not modelled).  `none` models
the `ValueError`. -/
def pyFloat (s : String) : Option PyNum :=
  let core : List Char → Option PyNum := fun l =>
    match splitOnCharL '.' l with
    | [intPart] => (digitsVal 10 intPart).map (fun n => PyNum.ofInt (n : Int))
    | [intPart, fracPart] =>
      match intPart, fracPart with
      | [], [] => none
      | [], f => (digitsVal 10 f).map (fun n => ⟨(n : Int), 10 ^ f.length⟩)
      | i, [] => (digitsVal 10 i).map (fun n => PyNum.ofInt (n : Int))
      | i, f =>
        match digitsVal 10 i, digitsVal 10 f with
        | some a, some b =>
          some ⟨(a : Int) * (10 : Int) ^ f.length + (b : Int), 10 ^ f.length⟩
        | _, _ => none
    | _ => none
  match s.toList with
  | '-' :: rest => (core rest).map PyNum.neg
  | '+' :: rest => core rest
  | l => core l

/-- Numeric literal in a comparison string, parsed like the operand text
(float when it contains a decimal point, else base-10 integer). -/
def parseNumberLit (s : String) : Option PyNum :=
  if s.toList.contains '.' then pyFloat s
  else (pyInt 10 s).map PyNum.ofInt

/-- Modelled from the spec:
`semgrep.metavariable_comparison.metavariable_comparison` (not under
`src/`) evaluates the `comparison` string as a boolean arithmetic
expression with the metavariable name bound to the parsed numeric value.
We model comparisons of the form `"<metavariable> <op> <numeric literal>"`
with `op` among `< <= > >= == !=`; any other form evaluates to `false`. -/
def metavariable_comparison (metavariable comparison : String)
    (converted : PyNum) : Bool :=
  match splitOnChar ' ' comparison with
  | [v, op, lit] =>
    if v = metavariable then
      match parseNumberLit lit with
      | some n =>
        if op = "<" then pyNumLt converted n
        else if op = "<=" then !(pyNumLt n converted)
        else if op = ">" then pyNumLt n converted
        else if op = ">=" then !(pyNumLt converted n)
        else if op = "==" then pyNumEq converted n
        else if op = "!=" then !(pyNumEq converted n)
        else false
      | none => false
    else false
  | _ => false

/-- The numeric conversion inside `compare_range_match`: optional quote
strip, then float parse if the text contains `"."`, else integer parse in
`base` (default 10).  `none` is the `ValueError` branch. -/
def pyParseContent (strip : Option Bool) (base : Option Nat) (content : String) :
    Option PyNum :=
  let content := if strip.getD false then pyStrip content else content
  if content.toList.contains '.' then pyFloat content
  else match base with
    | some b => (pyInt b content).map PyNum.ofInt
    | none => (pyInt 10 content).map PyNum.ofInt

/-- `compare_range_match`: strip, parse, and evaluate the comparison; a
parse failure yields `false` (the match is excluded, no error). -/
def compare_range_match (metavariable comparison : String) (strip : Option Bool)
    (base : Option Nat) (content : String) : Bool :=
  match pyParseContent strip base content with
  | none => false
  | some converted => metavariable_comparison metavariable comparison converted

/-- The per-range test of `get_comparison_range_matches`: the range binds
the metavariable and some match with an equal range has a binding passing
the comparison. -/
def cmpPred (metavariable comparison : String) (strip : Option Bool)
    (base : Option Nat) (pattern_matches : List PatternMatch) (r : Range) :
    Bool :=
  if r.vars.contains metavariable then
    pattern_matches.any (fun pm =>
      rangeEq pm.range r &&
        match pm.getMetavariableValue metavariable with
        | some content =>
          compare_range_match metavariable comparison strip base content
        | none => false)
  else false

/-- `get_comparison_range_matches`: keep the candidate ranges that bind the
metavariable and have some equal-range match whose bound text passes the
comparison. -/
def get_comparison_range_matches (metavariable comparison : String)
    (strip : Option Bool) (base : Option Nat) (ranges : List Range)
    (pattern_matches : List PatternMatch) : List Range :=
  ranges.filter (cmpPred metavariable comparison strip base pattern_matches)

/-- The per-range test of `get_re_range_matches`: the range binds the
metavariable and some match with an equal range has a binding matching the
regex. -/
def rePred (ctx : Ctx) (metavariable regex : String)
    (pattern_matches : List PatternMatch) (r : Range) : Bool :=
  if r.vars.contains metavariable then
    pattern_matches.any (fun pm =>
      rangeEq pm.range r &&
        match pm.getMetavariableValue metavariable with
        | some content => ctx.reMatch regex content
        | none => false)
  else false

/-- `get_re_range_matches`: keep the candidate ranges that bind the
metavariable and have some equal-range match whose bound text matches the
regex (Python `re.match`, abstracted by `Ctx.reMatch`). -/
def get_re_range_matches (ctx : Ctx) (metavariable regex : String)
    (ranges : List Range) (pattern_matches : List PatternMatch) : List Range :=
  ranges.filter (rePred ctx metavariable regex pattern_matches)

/-- `_where_python_statement_matches`: run the user expression via the
`exec` oracle; exceptions leave `result = False`; a non-boolean produced
value raises a `SemgrepError` (without a dedicated exit code). -/
def _where_python_statement_matches (ctx : Ctx) (where_expression : String)
    (metavars : List (String × String)) : Except EvalError Bool :=
  match ctx.pyExec where_expression metavars with
  | .val b => .ok b
  | .raisedKeyError => .ok false
  | .raisedOther => .ok false
  | .nonBoolean => .error (.semgrepError none)

/-- The `WHERE_PYTHON` output-set comprehension: the ranges of the flattened
matches that are still candidates and whose predicate evaluates to true.
Membership is checked before the predicate runs (Python `and`
short-circuit). -/
def whereFilter (ctx : Ctx) (code : String) (pms : List PatternMatch)
    (ranges_left : List Range) : Except EvalError (List Range) :=
  match pms with
  | [] => .ok []
  | pm :: rest =>
    if memB pm.range ranges_left then
      match _where_python_statement_matches ctx code pm.metavars with
      | .error e => .error e
      | .ok b =>
        match whereFilter ctx code rest ranges_left with
        | .error e => .error e
        | .ok tail => .ok (if b then pm.range :: tail else tail)
    else whereFilter ctx code rest ranges_left

/-- Modelled from the spec: `pattern_name_for_operator` from
`semgrep_types.py` (not under `src/`), the operator's display name used
only for trace labels. -/
def pattern_name_for_operator (o : Operator) : String :=
  match o with
  | .AND => "pattern"
  | .AND_NOT => "pattern-not"
  | .AND_INSIDE => "pattern-inside"
  | .AND_NOT_INSIDE => "pattern-not-inside"
  | .WHERE_PYTHON => "pattern-where-python"
  | .REGEX => "pattern-regex"
  | .NOT_REGEX => "pattern-not-regex"
  | .METAVARIABLE_REGEX => "metavariable-regex"
  | .METAVARIABLE_COMPARISON => "metavariable-comparison"
  | .AND_EITHER => "pattern-either"
  | .AND_ALL => "patterns"

/-- Append one binding to the metavariable-name-indexed accumulator
(insertion-ordered dictionary update). -/
def addBinding (m : List (String × List String)) (k v : String) :
    List (String × List String) :=
  if (List.lookup k m).isSome then
    m.map (fun kv => if kv.1 = k then (kv.1, kv.2 ++ [v]) else kv)
  else m ++ [(k, [v])]

/-- `get_metavar_debugging_info`: flatten the per-match metavariable
bindings of the expression's pattern into a name-indexed mapping (empty
when `pattern_id is None`; note this uses `is not None`, not truthiness). -/
def get_metavar_debugging_info (e : BRE) (G : Registry) :
    List (String × List String) :=
  match e.pattern_id with
  | none => []
  | some pid =>
    ((G.get pid).map (fun pm => pm.metavars)).foldl
      (fun acc entry => entry.foldl (fun acc kv => addBinding acc kv.1 kv.2) acc)
      []

/-- `ranges_for_pattern`: the ranges of the expression's pattern, `[]` when
the pattern id is falsy (`None` or the empty string). -/
def rangesForPattern (pid : Option String) (G : Registry) : List Range :=
  match pid with
  | some p => if p = "" then [] else (G.get p).map (fun pm => pm.range)
  | none => []

/-- `_evaluate_single_expression`: one leaf operator applied to the
candidate set, returning the output ranges and the extended trace. -/
def _evaluate_single_expression (ctx : Ctx) (e : BRE) (G : Registry)
    (ranges_left : List Range) (steps : List Step) (flags : Flags) :
    Except EvalError (List Range × List Step) :=
  let ranges_for_pattern := rangesForPattern e.pattern_id G
  let withStep : List Range → Except EvalError (List Range × List Step) :=
    fun output =>
      .ok (output,
        steps ++ [⟨pattern_name_for_operator e.operator, e.pattern_id, output,
          get_metavar_debugging_info e G⟩])
  match e.operator with
  | .AND => withStep (interR ranges_left ranges_for_pattern)
  | .AND_NOT => withStep (diffR ranges_left ranges_for_pattern)
  | .AND_INSIDE =>
    withStep (ranges_left.filter (fun r =>
      ranges_for_pattern.any (fun p => p.is_enclosing_or_eq r)))
  | .AND_NOT_INSIDE =>
    withStep (ranges_left.filter (fun r =>
      !(ranges_for_pattern.any (fun p => p.is_enclosing_or_eq r))))
  | .WHERE_PYTHON =>
    match flags with
    | none => .error (.semgrepError (some NEED_ARBITRARY_CODE_EXEC_EXIT_CODE))
    | some fl =>
      if fl.isEmpty then
        .error (.semgrepError (some NEED_ARBITRARY_CODE_EXEC_EXIT_CODE))
      else
        match List.lookup RCE_RULE_FLAG fl with
        | none => .error .keyError
        | some b =>
          if !b then
            .error (.semgrepError (some NEED_ARBITRARY_CODE_EXEC_EXIT_CODE))
          else
            match e.operand with
            | some (.str code) =>
              match whereFilter ctx code G.flat ranges_left with
              | .error err => .error err
              | .ok output => withStep (dedupR output)
            | _ => .error (.semgrepError none)
  | .REGEX => withStep (interR ranges_left ranges_for_pattern)
  | .NOT_REGEX =>
    withStep (ranges_left.filter (fun r =>
      !(ranges_for_pattern.any (fun p => r.is_range_enclosing_or_eq p))))
  | .METAVARIABLE_REGEX =>
    match e.operand with
    | some (.map m) =>
      withStep (get_re_range_matches ctx m.metavariable m.regex ranges_left G.flat)
    | _ => .error (.semgrepError none)
  | .METAVARIABLE_COMPARISON =>
    match e.operand with
    | some (.map m) =>
      withStep (get_comparison_range_matches m.metavariable m.comparison
        m.strip m.base ranges_left G.flat)
    | _ => .error (.semgrepError none)
  | _ => .error .unknownOperatorError

mutual

/-- `_evaluate_expression`: composite operators recurse on their children
(`AND_EITHER` unions child outputs; `AND_ALL` intersects the running set
with each child's output in turn), leaves delegate to
`_evaluate_single_expression`. -/
def _evaluate_expression (ctx : Ctx) (e : BRE) (G : Registry)
    (ranges_left : List Range) (steps : List Step) (flags : Flags) :
    Except EvalError (List Range × List Step) :=
  match e with
  | .mk op pid opnd ch =>
    if withChildren op then
      match ch with
      | none => .error (.semgrepError none)
      | some cs =>
        match op with
        | .AND_EITHER =>
          match evalEitherChildren ctx cs G ranges_left steps flags with
          | .error err => .error err
          | .ok (outs, steps') =>
            .ok (interR ranges_left outs.flatten,
              steps' ++ [⟨pattern_name_for_operator op, none,
                interR ranges_left outs.flatten, []⟩])
        | .AND_ALL =>
          match evalAllChildren ctx cs G ranges_left steps flags with
          | .error err => .error err
          | .ok (finalRanges, steps') =>
            .ok (finalRanges,
              steps' ++ [⟨pattern_name_for_operator op, none, finalRanges, []⟩])
        | _ => .error .unknownOperatorError
    else
      match ch with
      | some _ => .error (.semgrepError none)
      | none =>
        _evaluate_single_expression ctx (.mk op pid opnd none) G ranges_left
          steps flags

/-- The `AND_EITHER` child list comprehension: every child is evaluated
against a copy of the same input candidate set; outputs are collected. -/
def evalEitherChildren (ctx : Ctx) (cs : List BRE) (G : Registry)
    (ranges_left : List Range) (steps : List Step) (flags : Flags) :
    Except EvalError (List (List Range) × List Step) :=
  match cs with
  | [] => .ok ([], steps)
  | c :: rest =>
    match _evaluate_expression ctx c G ranges_left steps flags with
    | .error err => .error err
    | .ok (out, steps') =>
      match evalEitherChildren ctx rest G ranges_left steps' flags with
      | .error err => .error err
      | .ok (outs, steps'') => .ok (out :: outs, steps'')

/-- The `AND_ALL` loop: each child is evaluated against a copy of the
current running set, whose result is then intersected into the running set
before the next child runs. -/
def evalAllChildren (ctx : Ctx) (cs : List BRE) (G : Registry)
    (ranges_left : List Range) (steps : List Step) (flags : Flags) :
    Except EvalError (List Range × List Step) :=
  match cs with
  | [] => .ok (ranges_left, steps)
  | c :: rest =>
    match _evaluate_expression ctx c G ranges_left steps flags with
    | .error err => .error err
    | .ok (remaining, steps') =>
      evalAllChildren ctx rest G (interR ranges_left remaining) steps' flags

end

/-- `evaluate_expression`: the candidate set starts as the set of all match
ranges across the registry. -/
def evaluate_expression (ctx : Ctx) (e : BRE) (G : Registry)
    (steps : List Step) (flags : Flags) :
    Except EvalError (List Range × List Step) :=
  _evaluate_expression ctx e G (dedupR (G.flat.map (fun pm => pm.range)))
    steps flags

/-- Result-set projection of `_evaluate_expression` (drops the trace). -/
def evalRanges (ctx : Ctx) (e : BRE) (G : Registry) (ranges_left : List Range)
    (flags : Flags) : Except EvalError (List Range) :=
  (_evaluate_expression ctx e G ranges_left [] flags).map Prod.fst

/-- Result-set projection of `_evaluate_single_expression`. -/
def evalSingleRanges (ctx : Ctx) (e : BRE) (G : Registry)
    (ranges_left : List Range) (flags : Flags) : Except EvalError (List Range) :=
  (_evaluate_single_expression ctx e G ranges_left [] flags).map Prod.fst

/-- Loop of `evalAndAllSpecProcedure`: each child is evaluated against the
*original* candidate set `ranges_left`; its output is intersected into the
running set. -/
def evalAndAllSpecGo (ctx : Ctx) (G : Registry) (ranges_left : List Range)
    (flags : Flags) : List BRE → List Range → Except EvalError (List Range)
  | [], running => .ok running
  | c :: rest, running =>
    match _evaluate_expression ctx c G ranges_left [] flags with
    | .error err => .error err
    | .ok (out, _) => evalAndAllSpecGo ctx G ranges_left flags rest
      (interR running out)

/-- Follows the spec's words for the `AND_ALL` semantics (claim C1): every
child is evaluated against a fresh copy of the *original* input candidate
set, and the final result intersects the running candidate set with every
child's output. -/
def evalAndAllSpecProcedure (ctx : Ctx) (cs : List BRE) (G : Registry)
    (ranges_left : List Range) (flags : Flags) : Except EvalError (List Range) :=
  evalAndAllSpecGo ctx G ranges_left flags cs ranges_left

/-- Fuelled loop of `pyReplace`; the fuel (initially the subject's length)
bounds the scan, each step consuming at least one character. -/
def replaceFuel (pat rep : List Char) : Nat → List Char → List Char
  | 0, s => s
  | _, [] => []
  | fuel + 1, c :: rest =>
    if pat ≠ [] ∧ pat.isPrefixOf (c :: rest) then
      rep ++ replaceFuel pat rep fuel (List.drop (pat.length - 1) rest)
    else c :: replaceFuel pat rep fuel rest

/-- Models Python `str.replace`: replace every non-overlapping occurrence
of `pat` in `s` by `rep`, scanning left to right (an empty pattern leaves
the string unchanged). -/
def pyReplace (s pat rep : String) : String :=
  ⟨replaceFuel pat.toList rep.toList s.toList.length s.toList⟩

/-- `all_pattern_match_metavariables`: map every metavariable name seen
across all matches to the matches binding it, in original match order. -/
def buildAllMetavars (pms : List PatternMatch) :
    List (String × List PatternMatch) :=
  pms.foldl
    (fun acc pm =>
      pm.metavars.foldl
        (fun acc kv =>
          if (List.lookup kv.1 acc).isSome then
            acc.map (fun e => if e.1 = kv.1 then (e.1, e.2 ++ [pm]) else e)
          else acc ++ [(kv.1, [pm])])
        acc)
    []

/-- The per-name replacement text chosen by
`interpolate_message_metavariables`: prefer the current match's own
binding; else the binding of the first match (in original order) whose
range encloses-or-equals the current match's range; else the literal
metavariable name.  The inner lookup on the chosen enclosing match models
`get_metavariable_value` and its potential `KeyError`. -/
def replaceTextFor (pm : PatternMatch) (name : String)
    (pms_for_name : List PatternMatch) : Except EvalError String :=
  match pm.getMetavariableValue name with
  | some v => .ok v
  | none =>
    match pms_for_name.filter (fun q => q.range.is_range_enclosing_or_eq pm.range) with
    | [] => .ok name
    | q :: _ =>
      match q.getMetavariableValue name with
      | some v => .ok v
      | none => .error .keyError

/-- `interpolate_message_metavariables`: substitute each known metavariable
name in the message template by its resolved replacement text. -/
def interpolate_message_metavariables (rule : Rule) (pm : PatternMatch)
    (all_pattern_match_metavariables : List (String × List PatternMatch)) :
    Except EvalError String :=
  let rec go (msg : String) (entries : List (String × List PatternMatch)) :
      Except EvalError String :=
    match entries with
    | [] => .ok msg
    | (name, pms) :: rest =>
      match replaceTextFor pm name pms with
      | .error e => .error e
      | .ok replace_text => go (pyReplace msg name replace_text) rest
  go rule.message all_pattern_match_metavariables

/-- Loop of `interpolate_fix_metavariables` over the match's binding keys;
each lookup models `get_metavariable_value` and its potential `KeyError`. -/
def fixGo (pm : PatternMatch) : String → List String → Except EvalError String
  | s, [] => .ok s
  | s, k :: rest =>
    match pm.getMetavariableValue k with
    | some v => fixGo pm (pyReplace s k v) rest
    | none => .error .keyError

/-- `interpolate_fix_metavariables`: replace each metavariable name bound
by this match (iterating the match's own binding keys) by its bound text. -/
def interpolate_fix_metavariables (rule : Rule) (pm : PatternMatch) :
    Except EvalError (Option String) :=
  match rule.fix with
  | none => .ok none
  | some fix0 =>
    match fixGo pm fix0 (pm.metavars.map Prod.fst) with
    | .error e => .error e
    | .ok s => .ok (some s)

/-! ### Basic lemmas about interval equality and set membership -/

theorem rangeEq_iff {a b : Range} :
    rangeEq a b = true ↔ a.start = b.start ∧ a.stop = b.stop := by
  simp [rangeEq]

theorem rangeEq_refl (a : Range) : rangeEq a a = true := by
  simp [rangeEq]

theorem rangeEq_symm {a b : Range} (h : rangeEq a b = true) :
    rangeEq b a = true := by
  rw [rangeEq_iff] at h ⊢
  exact ⟨h.1.symm, h.2.symm⟩

theorem rangeEq_trans {a b c : Range} (h1 : rangeEq a b = true)
    (h2 : rangeEq b c = true) : rangeEq a c = true := by
  rw [rangeEq_iff] at h1 h2 ⊢
  exact ⟨h1.1.trans h2.1, h1.2.trans h2.2⟩

theorem memB_iff {x : Range} {s : List Range} :
    memB x s = true ↔ ∃ r ∈ s, rangeEq x r = true := by
  simp [memB, List.any_eq_true]

theorem memB_congr {x y : Range} {s : List Range} (h : rangeEq x y = true) :
    (memB x s = true ↔ memB y s = true) := by
  rw [memB_iff, memB_iff]
  constructor
  · rintro ⟨r, hr, hxr⟩
    exact ⟨r, hr, rangeEq_trans (rangeEq_symm h) hxr⟩
  · rintro ⟨r, hr, hyr⟩
    exact ⟨r, hr, rangeEq_trans h hyr⟩

theorem memB_filter_inv {x : Range} {s : List Range} {p : Range → Bool}
    (hp : ∀ a b, rangeEq a b = true → (p a = true ↔ p b = true)) :
    memB x (s.filter p) = true ↔ (memB x s = true ∧ p x = true) := by
  rw [memB_iff]
  constructor
  · rintro ⟨r, hr, hxr⟩
    rw [List.mem_filter] at hr
    exact ⟨memB_iff.mpr ⟨r, hr.1, hxr⟩, (hp x r hxr).mpr hr.2⟩
  · rintro ⟨hmem, hpx⟩
    obtain ⟨r, hr, hxr⟩ := memB_iff.mp hmem
    exact ⟨r, List.mem_filter.mpr ⟨hr, (hp x r hxr).mp hpx⟩, hxr⟩

theorem memB_filter_sub {x : Range} {s : List Range} {p : Range → Bool}
    (h : memB x (s.filter p) = true) : memB x s = true := by
  obtain ⟨r, hr, hxr⟩ := memB_iff.mp h
  exact memB_iff.mpr ⟨r, (List.mem_filter.mp hr).1, hxr⟩

theorem memB_append {x : Range} {a b : List Range} :
    memB x (a ++ b) = (memB x a || memB x b) := by
  simp [memB, List.any_append]

theorem dedupR_fold_mem (x : Range) :
    ∀ (l acc : List Range),
      memB x (l.foldl (fun acc r => if memB r acc then acc else acc ++ [r])
        acc) = true
      ↔ (memB x acc = true ∨ memB x l = true) := by
  intro l
  induction l with
  | nil => intro acc; simp [memB]
  | cons c rest ih =>
    intro acc
    rw [List.foldl_cons, ih]
    have hcons : (memB x (c :: rest) = true) ↔
        (rangeEq x c = true ∨ memB x rest = true) := by
      simp [memB]
    rw [hcons]
    cases hc : memB c acc with
    | true =>
      rw [if_pos rfl]
      constructor
      · rintro (h | h)
        · exact Or.inl h
        · exact Or.inr (Or.inr h)
      · rintro (h | h | h)
        · exact Or.inl h
        · exact Or.inl ((memB_congr h).mpr hc)
        · exact Or.inr h
    | false =>
      rw [if_neg (by simp [hc])]
      have happ : (memB x (acc ++ [c]) = true) ↔
          (memB x acc = true ∨ rangeEq x c = true) := by
        simp [memB, List.any_append]
      rw [happ]
      tauto

theorem memB_dedupR {x : Range} {l : List Range} :
    memB x (dedupR l) = true ↔ memB x l = true := by
  unfold dedupR
  rw [dedupR_fold_mem x l []]
  simp [memB]

theorem dedupR_fold_sub :
    ∀ (l acc : List Range) (r : Range),
      r ∈ l.foldl (fun acc r => if memB r acc then acc else acc ++ [r]) acc →
      r ∈ acc ∨ r ∈ l := by
  intro l
  induction l with
  | nil => intro acc r h; exact Or.inl h
  | cons c rest ih =>
    intro acc r h
    rw [List.foldl_cons] at h
    rcases ih _ r h with h1 | h1
    · by_cases hc : memB c acc = true
      · rw [if_pos hc] at h1
        exact Or.inl h1
      · rw [if_neg hc] at h1
        rcases List.mem_append.mp h1 with h2 | h2
        · exact Or.inl h2
        · have hrc : r = c := by simpa using h2
          exact Or.inr (hrc ▸ List.mem_cons_self c rest)
    · exact Or.inr (List.mem_cons_of_mem _ h1)

theorem dedupR_sub {l : List Range} {r : Range} (h : r ∈ dedupR l) :
    r ∈ l := by
  rcases dedupR_fold_sub l [] r h with h1 | h1
  · cases h1
  · exact h1

theorem memB_interR {x : Range} {s t : List Range} :
    memB x (interR s t) = true ↔ (memB x s = true ∧ memB x t = true) := by
  unfold interR
  rw [memB_dedupR, memB_filter_inv (fun a b h => memB_congr h)]
  exact and_comm

theorem interR_sub_right {s t : List Range} {r : Range}
    (h : r ∈ interR s t) : r ∈ t :=
  (List.mem_filter.mp (dedupR_sub h)).1

theorem memB_diffR {x : Range} {s t : List Range} :
    memB x (diffR s t) = true ↔ (memB x s = true ∧ ¬ memB x t = true) := by
  unfold diffR
  rw [memB_filter_inv (fun a b h => by
    have hc := memB_congr (s := t) h
    cases ha : memB a t <;> cases hb : memB b t <;> simp_all)]
  simp

theorem memB_flatten {x : Range} {ls : List (List Range)} :
    memB x ls.flatten = true ↔ ∃ l ∈ ls, memB x l = true := by
  simp [memB, List.any_eq_true, List.mem_flatten]

/-- `T` is an element-level subset of `S`. -/
def subOfS (T S : List Range) : Prop := ∀ r, r ∈ T → r ∈ S

theorem subOfS_filter {T S : List Range} {p : Range → Bool} (h : subOfS T S) :
    subOfS (T.filter p) S := by
  intro r hr
  exact h r (List.mem_filter.mp hr).1

/-- Every `Range` object an evaluation can ever hold: the input candidate
set together with all the registry's match ranges. -/
def rangeUniverse (G : Registry) (S : List Range) : List Range :=
  S ++ G.flat.map (fun pm => pm.range)

theorem subOfS_univ_left (G : Registry) (S : List Range) :
    subOfS S (rangeUniverse G S) :=
  fun _ hr => List.mem_append_left _ hr

/-- All equal-interval ranges in `U` carry the same bound-variable names:
the surviving representative of an interval class is then interchangeable
with any other. -/
def varsAligned (U : List Range) : Prop :=
  ∀ r ∈ U, ∀ r' ∈ U, rangeEq r r' = true → r.vars = r'.vars

instance (U : List Range) : Decidable (varsAligned U) :=
  inferInstanceAs (Decidable
    (∀ r ∈ U, ∀ r' ∈ U, rangeEq r r' = true → r.vars = r'.vars))

theorem Registry.get_sub_flat {G : Registry} {p : String} :
    ∀ pm ∈ Registry.get G p, pm ∈ G.flat := by
  induction G with
  | nil => intro pm h; cases h
  | cons kv rest ih =>
    intro pm h
    have hflat : Registry.flat (kv :: rest) = kv.2 ++ Registry.flat rest := by
      simp [Registry.flat]
    rw [hflat]
    unfold Registry.get at h
    by_cases hk : kv.1 = p
    · have : List.lookup p (kv :: rest) = some kv.2 := by
        simp [List.lookup, hk]
      rw [this] at h
      exact List.mem_append_left _ h
    · have hbeq : (p == kv.1) = false :=
        beq_eq_false_iff_ne.mpr (fun hpk => hk hpk.symm)
      have : List.lookup p (kv :: rest) = List.lookup p rest := by
        simp [List.lookup, hbeq]
      rw [this] at h
      exact List.mem_append_right _ (ih pm h)

theorem rangesForPattern_sub {G : Registry} {S : List Range}
    {pid : Option String} :
    ∀ r ∈ rangesForPattern pid G, r ∈ rangeUniverse G S := by
  intro r hr
  rcases pid with _ | p
  · simp [rangesForPattern] at hr
  · simp only [rangesForPattern] at hr
    by_cases hp : p = ""
    · rw [if_pos hp] at hr; cases hr
    · rw [if_neg hp] at hr
      obtain ⟨pm, hpm, rfl⟩ := List.mem_map.mp hr
      exact List.mem_append_right _
        (List.mem_map.mpr ⟨pm, Registry.get_sub_flat pm hpm, rfl⟩)

/-- A filter of `T` whose predicate depends only on the representative's
interval and bound-variable names, characterized through the universe `U`
when all equal ranges of `U` agree on their variables. -/
theorem memB_filter_varsAligned {T U : List Range} {p : Range → Bool}
    {x : Range} (hsub : subOfS T U) (hva : varsAligned U)
    (hp : ∀ a b, rangeEq a b = true → a.vars = b.vars → p a = p b) :
    memB x (T.filter p) = true ↔
      (memB x T = true ∧ ∃ r ∈ U, rangeEq x r = true ∧ p r = true) := by
  rw [memB_iff]
  constructor
  · rintro ⟨r, hr, hxr⟩
    rw [List.mem_filter] at hr
    exact ⟨memB_iff.mpr ⟨r, hr.1, hxr⟩, r, hsub r hr.1, hxr, hr.2⟩
  · rintro ⟨hmem, r, hrU, hxr, hpr⟩
    obtain ⟨t, htT, hxt⟩ := memB_iff.mp hmem
    have htr : rangeEq t r = true := rangeEq_trans (rangeEq_symm hxt) hxr
    have hvars : t.vars = r.vars := hva t (hsub t htT) r hrU htr
    have hpt : p t = true := by rw [hp t r htr hvars]; exact hpr
    exact ⟨t, List.mem_filter.mpr ⟨htT, hpt⟩, hxt⟩

/-! ### Characterizing the where-python comprehension -/

theorem wherePython_ok_iff {ctx : Ctx} {code : String}
    {mv : List (String × String)} {b : Bool}
    (h : _where_python_statement_matches ctx code mv = .ok b) :
    (b = true ↔ ctx.pyExec code mv = .val true) := by
  unfold _where_python_statement_matches at h
  cases hpe : ctx.pyExec code mv <;> rw [hpe] at h <;> simp_all

theorem whereFilter_ok_mem {ctx : Ctx} {code : String}
    {pms : List PatternMatch} {T l : List Range}
    (h : whereFilter ctx code pms T = .ok l) (x : Range) :
    memB x l = true ↔
      ∃ pm ∈ pms, rangeEq x pm.range = true ∧ memB pm.range T = true ∧
        ctx.pyExec code pm.metavars = .val true := by
  induction pms generalizing l with
  | nil =>
    unfold whereFilter at h
    obtain rfl : ([] : List Range) = l := by simpa using h
    simp [memB]
  | cons pm rest ih =>
    unfold whereFilter at h
    cases hmem : memB pm.range T with
    | false =>
      rw [hmem] at h
      rw [if_neg (by simp)] at h
      rw [ih h]
      constructor
      · rintro ⟨q, hq, h1, h2, h3⟩
        exact ⟨q, List.mem_cons_of_mem _ hq, h1, h2, h3⟩
      · rintro ⟨q, hq, h1, h2, h3⟩
        rcases List.mem_cons.mp hq with rfl | hq'
        · rw [hmem] at h2; cases h2
        · exact ⟨q, hq', h1, h2, h3⟩
    | true =>
      rw [hmem] at h
      rw [if_pos rfl] at h
      cases hws : _where_python_statement_matches ctx code pm.metavars with
      | error e => rw [hws] at h; cases h
      | ok b =>
        rw [hws] at h
        cases hwf : whereFilter ctx code rest T with
        | error e => rw [hwf] at h; cases h
        | ok tail =>
          rw [hwf] at h
          obtain rfl : (if b then pm.range :: tail else tail) = l := by
            simpa using h
          have hb := wherePython_ok_iff hws
          cases b with
          | true =>
            rw [if_pos rfl]
            rw [show memB x (pm.range :: tail) = (rangeEq x pm.range || memB x tail) by
              simp [memB]]
            simp only [Bool.or_eq_true]
            rw [ih hwf]
            constructor
            · rintro (h1 | ⟨q, hq, h1, h2, h3⟩)
              · exact ⟨pm, List.mem_cons_self _ _, h1, hmem, hb.mp rfl⟩
              · exact ⟨q, List.mem_cons_of_mem _ hq, h1, h2, h3⟩
            · rintro ⟨q, hq, h1, h2, h3⟩
              rcases List.mem_cons.mp hq with rfl | hq'
              · exact Or.inl h1
              · exact Or.inr ⟨q, hq', h1, h2, h3⟩
          | false =>
            rw [if_neg (by simp)]
            rw [ih hwf]
            constructor
            · rintro ⟨q, hq, h1, h2, h3⟩
              exact ⟨q, List.mem_cons_of_mem _ hq, h1, h2, h3⟩
            · rintro ⟨q, hq, h1, h2, h3⟩
              rcases List.mem_cons.mp hq with rfl | hq'
              · exact absurd (hb.mpr h3) (by simp)
              · exact ⟨q, hq', h1, h2, h3⟩

theorem whereFilter_error_shape {ctx : Ctx} {code : String}
    {pms : List PatternMatch} {T : List Range} {err : EvalError}
    (h : whereFilter ctx code pms T = .error err) :
    err = .semgrepError none := by
  induction pms generalizing err with
  | nil => unfold whereFilter at h; cases h
  | cons pm rest ih =>
    unfold whereFilter at h
    cases hmem : memB pm.range T with
    | false =>
      rw [hmem] at h
      rw [if_neg (by simp)] at h
      exact ih h
    | true =>
      rw [hmem] at h
      rw [if_pos rfl] at h
      cases hws : _where_python_statement_matches ctx code pm.metavars with
      | error e =>
        rw [hws] at h
        obtain rfl : e = err := by simpa using h
        unfold _where_python_statement_matches at hws
        cases hpe : ctx.pyExec code pm.metavars <;> rw [hpe] at hws <;>
          simp_all
      | ok b =>
        rw [hws] at h
        cases hwf : whereFilter ctx code rest T with
        | error e =>
          rw [hwf] at h
          obtain rfl : e = err := by simpa using h
          exact ih hwf
        | ok tail => rw [hwf] at h; cases h

/-! ### The per-expression filter characterization -/

mutual

/-- The filter predicate an expression realises: under `varsAligned`, a
range class survives an (error-free) evaluation of `e` iff it was a
candidate and satisfies `filterChar`.  The metavariable-scoped leaves
consult the surviving representative's `vars`, so their predicate is
phrased over the range universe (candidates plus all match ranges), whose
representatives are interchangeable exactly when `varsAligned` holds. -/
def filterChar (ctx : Ctx) (G : Registry) (S : List Range) :
    BRE → Range → Prop
  | .mk .AND_EITHER _ _ (some cs), x => filterCharAny ctx G S cs x
  | .mk .AND_ALL _ _ (some cs), x => filterCharAll ctx G S cs x
  | .mk .AND pid _ none, x => memB x (rangesForPattern pid G) = true
  | .mk .AND_NOT pid _ none, x => ¬ memB x (rangesForPattern pid G) = true
  | .mk .AND_INSIDE pid _ none, x =>
    (rangesForPattern pid G).any (fun p => p.is_enclosing_or_eq x) = true
  | .mk .AND_NOT_INSIDE pid _ none, x =>
    ¬ (rangesForPattern pid G).any (fun p => p.is_enclosing_or_eq x) = true
  | .mk .WHERE_PYTHON _ (some (.str code)) none, x =>
    ∃ pm ∈ G.flat, rangeEq x pm.range = true ∧
      ctx.pyExec code pm.metavars = .val true
  | .mk .REGEX pid _ none, x => memB x (rangesForPattern pid G) = true
  | .mk .NOT_REGEX pid _ none, x =>
    ¬ (rangesForPattern pid G).any (fun p => x.is_range_enclosing_or_eq p) = true
  | .mk .METAVARIABLE_REGEX _ (some (.map m)) none, x =>
    ∃ r ∈ rangeUniverse G S, rangeEq x r = true ∧
      rePred ctx m.metavariable m.regex G.flat r = true
  | .mk .METAVARIABLE_COMPARISON _ (some (.map m)) none, x =>
    ∃ r ∈ rangeUniverse G S, rangeEq x r = true ∧
      cmpPred m.metavariable m.comparison m.strip m.base G.flat r = true
  | _, _ => False

/-- Conjunction of the children's filters (`AND_ALL`). -/
def filterCharAll (ctx : Ctx) (G : Registry) (S : List Range) :
    List BRE → Range → Prop
  | [], _ => True
  | c :: rest, x => filterChar ctx G S c x ∧ filterCharAll ctx G S rest x

/-- Disjunction of the children's filters (`AND_EITHER`). -/
def filterCharAny (ctx : Ctx) (G : Registry) (S : List Range) :
    List BRE → Range → Prop
  | [], _ => False
  | c :: rest, x => filterChar ctx G S c x ∨ filterCharAny ctx G S rest x

end

theorem encl_any_congr {rfp : List Range} {a b : Range} (h : rangeEq a b = true) :
    (rfp.any (fun p => p.is_enclosing_or_eq a)) =
      (rfp.any (fun p => p.is_enclosing_or_eq b)) := by
  obtain ⟨h1, h2⟩ := rangeEq_iff.mp h
  simp [Range.is_enclosing_or_eq, h1, h2]

theorem rencl_any_congr {rfp : List Range} {a b : Range} (h : rangeEq a b = true) :
    (rfp.any (fun p => a.is_range_enclosing_or_eq p)) =
      (rfp.any (fun p => b.is_range_enclosing_or_eq p)) := by
  obtain ⟨h1, h2⟩ := rangeEq_iff.mp h
  simp [Range.is_range_enclosing_or_eq, h1, h2]

/-- `rePred` depends only on the representative's interval and `vars`. -/
theorem rePred_congr {ctx : Ctx} {m re : String} {pms : List PatternMatch} :
    ∀ a b, rangeEq a b = true → a.vars = b.vars →
      rePred ctx m re pms a = rePred ctx m re pms b := by
  intro a b hab hv
  obtain ⟨h1, h2⟩ := rangeEq_iff.mp hab
  unfold rePred
  rw [hv]
  have heq : ∀ pm : PatternMatch, rangeEq pm.range a = rangeEq pm.range b :=
    fun pm => by simp [rangeEq, h1, h2]
  simp only [heq]

/-- `cmpPred` depends only on the representative's interval and `vars`. -/
theorem cmpPred_congr {m c : String} {strip : Option Bool} {base : Option Nat}
    {pms : List PatternMatch} :
    ∀ a b, rangeEq a b = true → a.vars = b.vars →
      cmpPred m c strip base pms a = cmpPred m c strip base pms b := by
  intro a b hab hv
  obtain ⟨h1, h2⟩ := rangeEq_iff.mp hab
  unfold cmpPred
  rw [hv]
  have heq : ∀ pm : PatternMatch, rangeEq pm.range a = rangeEq pm.range b :=
    fun pm => by simp [rangeEq, h1, h2]
  simp only [heq]

/-- Every range produced by the where-python comprehension is a match
range. -/
theorem whereFilter_sub {ctx : Ctx} {code : String}
    {pms : List PatternMatch} {T l : List Range}
    (h : whereFilter ctx code pms T = .ok l) :
    ∀ r ∈ l, ∃ pm ∈ pms, r = pm.range := by
  induction pms generalizing l with
  | nil =>
    unfold whereFilter at h
    obtain rfl : ([] : List Range) = l := by simpa using h
    intro r hr
    cases hr
  | cons pm rest ih =>
    unfold whereFilter at h
    cases hmem : memB pm.range T with
    | false =>
      rw [hmem] at h
      rw [if_neg (by simp)] at h
      intro r hr
      obtain ⟨q, hq, rfl⟩ := ih h r hr
      exact ⟨q, List.mem_cons_of_mem _ hq, rfl⟩
    | true =>
      rw [hmem] at h
      rw [if_pos rfl] at h
      cases hws : _where_python_statement_matches ctx code pm.metavars with
      | error e => rw [hws] at h; cases h
      | ok b =>
        rw [hws] at h
        cases hwf : whereFilter ctx code rest T with
        | error e => rw [hwf] at h; cases h
        | ok tail =>
          rw [hwf] at h
          obtain rfl : (if b then pm.range :: tail else tail) = l := by
            simpa using h
          intro r hr
          cases b with
          | true =>
            rw [if_pos rfl] at hr
            rcases List.mem_cons.mp hr with rfl | hr'
            · exact ⟨pm, List.mem_cons_self pm rest, rfl⟩
            · obtain ⟨q, hq, rfl⟩ := ih hwf r hr'
              exact ⟨q, List.mem_cons_of_mem _ hq, rfl⟩
          | false =>
            rw [if_neg (by simp)] at hr
            obtain ⟨q, hq, rfl⟩ := ih hwf r hr
            exact ⟨q, List.mem_cons_of_mem _ hq, rfl⟩

/-- Characterization of one leaf step: the output stays inside the range
universe, and a range survives iff it was a candidate and satisfies the
expression's filter predicate. -/
theorem evalSingleChar {ctx : Ctx} {G : Registry} {flags : Flags}
    {S : List Range} {op : Operator} {pid : Option String}
    {opnd : Option Operand} {T : List Range} {steps : List Step}
    {out : List Range} {st : List Step}
    (hsub : subOfS T (rangeUniverse G S))
    (hva : varsAligned (rangeUniverse G S))
    (h : _evaluate_single_expression ctx (.mk op pid opnd none) G T steps
      flags = .ok (out, st)) :
    subOfS out (rangeUniverse G S) ∧
    ∀ x, memB x out = true ↔
      (memB x T = true ∧ filterChar ctx G S (.mk op pid opnd none) x) := by
  cases op with
  | AND =>
    simp only [_evaluate_single_expression, BRE.operator, BRE.pattern_id,
      BRE.operand, Except.ok.injEq, Prod.mk.injEq] at h
    obtain ⟨rfl, rfl⟩ := h
    refine ⟨fun r hr => rangesForPattern_sub _ (interR_sub_right hr),
      fun x => ?_⟩
    rw [show filterChar ctx G S (.mk .AND pid opnd none) x =
      (memB x (rangesForPattern pid G) = true) from rfl]
    exact memB_interR
  | AND_NOT =>
    simp only [_evaluate_single_expression, BRE.operator, BRE.pattern_id,
      BRE.operand, Except.ok.injEq, Prod.mk.injEq] at h
    obtain ⟨rfl, rfl⟩ := h
    refine ⟨fun r hr => hsub r (List.mem_filter.mp hr).1, fun x => ?_⟩
    rw [show filterChar ctx G S (.mk .AND_NOT pid opnd none) x =
      (¬ memB x (rangesForPattern pid G) = true) from rfl]
    exact memB_diffR
  | AND_INSIDE =>
    simp only [_evaluate_single_expression, BRE.operator, BRE.pattern_id,
      BRE.operand, Except.ok.injEq, Prod.mk.injEq] at h
    obtain ⟨rfl, rfl⟩ := h
    refine ⟨fun r hr => hsub r (List.mem_filter.mp hr).1, fun x => ?_⟩
    rw [show filterChar ctx G S (.mk .AND_INSIDE pid opnd none) x =
      ((rangesForPattern pid G).any (fun p => p.is_enclosing_or_eq x) = true)
      from rfl]
    exact memB_filter_inv (fun a b hab => by rw [encl_any_congr hab])
  | AND_NOT_INSIDE =>
    simp only [_evaluate_single_expression, BRE.operator, BRE.pattern_id,
      BRE.operand, Except.ok.injEq, Prod.mk.injEq] at h
    obtain ⟨rfl, rfl⟩ := h
    refine ⟨fun r hr => hsub r (List.mem_filter.mp hr).1, fun x => ?_⟩
    rw [show filterChar ctx G S (.mk .AND_NOT_INSIDE pid opnd none) x =
      (¬ (rangesForPattern pid G).any (fun p => p.is_enclosing_or_eq x) = true)
      from rfl]
    rw [memB_filter_inv (p := fun r =>
        !((rangesForPattern pid G).any (fun p => p.is_enclosing_or_eq r)))
      (fun a b hab => by
        show (!(rangesForPattern pid G).any (fun p => p.is_enclosing_or_eq a))
            = true ↔
          (!(rangesForPattern pid G).any (fun p => p.is_enclosing_or_eq b))
            = true
        rw [encl_any_congr hab])]
    simp
  | REGEX =>
    simp only [_evaluate_single_expression, BRE.operator, BRE.pattern_id,
      BRE.operand, Except.ok.injEq, Prod.mk.injEq] at h
    obtain ⟨rfl, rfl⟩ := h
    refine ⟨fun r hr => rangesForPattern_sub _ (interR_sub_right hr),
      fun x => ?_⟩
    rw [show filterChar ctx G S (.mk .REGEX pid opnd none) x =
      (memB x (rangesForPattern pid G) = true) from rfl]
    exact memB_interR
  | NOT_REGEX =>
    simp only [_evaluate_single_expression, BRE.operator, BRE.pattern_id,
      BRE.operand, Except.ok.injEq, Prod.mk.injEq] at h
    obtain ⟨rfl, rfl⟩ := h
    refine ⟨fun r hr => hsub r (List.mem_filter.mp hr).1, fun x => ?_⟩
    rw [show filterChar ctx G S (.mk .NOT_REGEX pid opnd none) x =
      (¬ (rangesForPattern pid G).any (fun p => x.is_range_enclosing_or_eq p)
        = true) from rfl]
    rw [memB_filter_inv (p := fun r =>
        !((rangesForPattern pid G).any (fun p => r.is_range_enclosing_or_eq p)))
      (fun a b hab => by
        show (!(rangesForPattern pid G).any
            (fun p => a.is_range_enclosing_or_eq p)) = true ↔
          (!(rangesForPattern pid G).any
            (fun p => b.is_range_enclosing_or_eq p)) = true
        rw [rencl_any_congr hab])]
    simp
  | WHERE_PYTHON =>
    simp only [_evaluate_single_expression, BRE.operator, BRE.pattern_id,
      BRE.operand] at h
    split at h
    next => cases h
    next fl =>
      split at h
      next => cases h
      next =>
        split at h
        next => cases h
        next b hlk =>
          split at h
          next => cases h
          next hb =>
            split at h
            next code =>
              split at h
              next => cases h
              next output hwf =>
                simp only [Except.ok.injEq, Prod.mk.injEq] at h
                obtain ⟨rfl, rfl⟩ := h
                constructor
                · intro r hr
                  obtain ⟨pm, hpm, rfl⟩ := whereFilter_sub hwf r (dedupR_sub hr)
                  exact List.mem_append_right _
                    (List.mem_map.mpr ⟨pm, hpm, rfl⟩)
                · intro x
                  rw [show filterChar ctx G S
                    (.mk .WHERE_PYTHON pid (some (.str code)) none) x =
                    (∃ pm ∈ G.flat, rangeEq x pm.range = true ∧
                      ctx.pyExec code pm.metavars = .val true) from rfl]
                  rw [memB_dedupR, whereFilter_ok_mem hwf x]
                  constructor
                  · rintro ⟨pm, hpm, h1, h2, h3⟩
                    exact ⟨(memB_congr h1).mpr h2, pm, hpm, h1, h3⟩
                  · rintro ⟨hT, pm, hpm, h1, h3⟩
                    exact ⟨pm, hpm, h1, (memB_congr h1).mp hT, h3⟩
            next => cases h
  | METAVARIABLE_REGEX =>
    simp only [_evaluate_single_expression, BRE.operator, BRE.pattern_id,
      BRE.operand] at h
    split at h
    next m =>
      simp only [Except.ok.injEq, Prod.mk.injEq] at h
      obtain ⟨rfl, rfl⟩ := h
      refine ⟨fun r hr => hsub r (List.mem_filter.mp hr).1, fun x => ?_⟩
      rw [show filterChar ctx G S
        (.mk .METAVARIABLE_REGEX pid (some (.map m)) none) x =
        (∃ r ∈ rangeUniverse G S, rangeEq x r = true ∧
          rePred ctx m.metavariable m.regex G.flat r = true) from rfl]
      exact memB_filter_varsAligned hsub hva rePred_congr
    next => cases h
  | METAVARIABLE_COMPARISON =>
    simp only [_evaluate_single_expression, BRE.operator, BRE.pattern_id,
      BRE.operand] at h
    split at h
    next m =>
      simp only [Except.ok.injEq, Prod.mk.injEq] at h
      obtain ⟨rfl, rfl⟩ := h
      refine ⟨fun r hr => hsub r (List.mem_filter.mp hr).1, fun x => ?_⟩
      rw [show filterChar ctx G S
        (.mk .METAVARIABLE_COMPARISON pid (some (.map m)) none) x =
        (∃ r ∈ rangeUniverse G S, rangeEq x r = true ∧
          cmpPred m.metavariable m.comparison m.strip m.base G.flat r = true)
        from rfl]
      exact memB_filter_varsAligned hsub hva cmpPred_congr
    next => cases h
  | AND_EITHER =>
    simp only [_evaluate_single_expression, BRE.operator] at h
    cases h
  | AND_ALL =>
    simp only [_evaluate_single_expression, BRE.operator] at h
    cases h

/-- Characterization of the `AND_ALL` loop, assuming the characterization
holds for each child (sizes bounded by `n`). -/
theorem evalAllChildren_char {ctx : Ctx} {G : Registry} {flags : Flags}
    {S : List Range} {n : Nat}
    (IH : ∀ (e : BRE) (T : List Range) (steps : List Step) (out : List Range)
      (st : List Step), sizeOf e ≤ n → subOfS T (rangeUniverse G S) →
      _evaluate_expression ctx e G T steps flags = .ok (out, st) →
      subOfS out (rangeUniverse G S) ∧
      ∀ x, memB x out = true ↔ (memB x T = true ∧ filterChar ctx G S e x)) :
    ∀ (cs : List BRE), (∀ c ∈ cs, sizeOf c ≤ n) →
      ∀ (T : List Range) (steps : List Step) (out : List Range)
        (st : List Step), subOfS T (rangeUniverse G S) →
        evalAllChildren ctx cs G T steps flags = .ok (out, st) →
        subOfS out (rangeUniverse G S) ∧
        ∀ x, memB x out = true ↔
          (memB x T = true ∧ filterCharAll ctx G S cs x) := by
  intro cs
  induction cs with
  | nil =>
    intro _ T steps out st hsub hev
    unfold evalAllChildren at hev
    simp only [Except.ok.injEq, Prod.mk.injEq] at hev
    obtain ⟨rfl, rfl⟩ := hev
    refine ⟨hsub, fun x => ?_⟩
    rw [show filterCharAll ctx G S [] x = True from rfl]
    simp
  | cons c rest ihl =>
    intro hb T steps out st hsub hev
    unfold evalAllChildren at hev
    split at hev
    next => cases hev
    next remaining steps' hc =>
      obtain ⟨hsubR, hchar⟩ := IH c T steps remaining steps'
        (hb c (List.mem_cons_self c rest)) hsub hc
      have hsub2 : subOfS (interR T remaining) (rangeUniverse G S) :=
        fun r hr => hsubR r (interR_sub_right hr)
      obtain ⟨hsubO, hrest⟩ := ihl
        (fun c' hc' => hb c' (List.mem_cons_of_mem _ hc'))
        (interR T remaining) steps' out st hsub2 hev
      refine ⟨hsubO, fun x => ?_⟩
      rw [show filterCharAll ctx G S (c :: rest) x =
        (filterChar ctx G S c x ∧ filterCharAll ctx G S rest x) from rfl]
      rw [hrest x, memB_interR, hchar x]
      tauto

/-- Characterization of the `AND_EITHER` child outputs, assuming the
characterization holds for each child. -/
theorem evalEitherChildren_char {ctx : Ctx} {G : Registry} {flags : Flags}
    {S : List Range} {n : Nat}
    (IH : ∀ (e : BRE) (T : List Range) (steps : List Step) (out : List Range)
      (st : List Step), sizeOf e ≤ n → subOfS T (rangeUniverse G S) →
      _evaluate_expression ctx e G T steps flags = .ok (out, st) →
      subOfS out (rangeUniverse G S) ∧
      ∀ x, memB x out = true ↔ (memB x T = true ∧ filterChar ctx G S e x)) :
    ∀ (cs : List BRE), (∀ c ∈ cs, sizeOf c ≤ n) →
      ∀ (T : List Range) (steps : List Step) (outs : List (List Range))
        (st : List Step), subOfS T (rangeUniverse G S) →
        evalEitherChildren ctx cs G T steps flags = .ok (outs, st) →
        (∀ o ∈ outs, subOfS o (rangeUniverse G S)) ∧
        ∀ x, (∃ o ∈ outs, memB x o = true) ↔
          (memB x T = true ∧ filterCharAny ctx G S cs x) := by
  intro cs
  induction cs with
  | nil =>
    intro _ T steps outs st _ hev
    unfold evalEitherChildren at hev
    simp only [Except.ok.injEq, Prod.mk.injEq] at hev
    obtain ⟨rfl, rfl⟩ := hev
    refine ⟨fun o ho => absurd ho (by simp), fun x => ?_⟩
    rw [show filterCharAny ctx G S [] x = False from rfl]
    simp
  | cons c rest ihl =>
    intro hb T steps outs st hsub hev
    unfold evalEitherChildren at hev
    split at hev
    next => cases hev
    next out1 steps' hc =>
      split at hev
      next => cases hev
      next outs' steps'' hrest =>
        simp only [Except.ok.injEq, Prod.mk.injEq] at hev
        obtain ⟨rfl, rfl⟩ := hev
        obtain ⟨hsub1, hchar⟩ := IH c T steps out1 steps'
          (hb c (List.mem_cons_self c rest)) hsub hc
        obtain ⟨hsubs, htail⟩ := ihl
          (fun c' hc' => hb c' (List.mem_cons_of_mem _ hc'))
          T steps' outs' steps'' hsub hrest
        constructor
        · intro o ho
          rcases List.mem_cons.mp ho with rfl | ho'
          · exact hsub1
          · exact hsubs o ho'
        · intro x
          rw [show filterCharAny ctx G S (c :: rest) x =
            (filterChar ctx G S c x ∨ filterCharAny ctx G S rest x) from rfl]
          constructor
          · rintro ⟨o, ho, hmo⟩
            rcases List.mem_cons.mp ho with rfl | ho'
            · have := (hchar x).mp hmo
              exact ⟨this.1, Or.inl this.2⟩
            · have := (htail x).mp ⟨o, ho', hmo⟩
              exact ⟨this.1, Or.inr this.2⟩
          · rintro ⟨hT, hphi | hphi⟩
            · exact ⟨out1, List.mem_cons_self _ _, (hchar x).mpr ⟨hT, hphi⟩⟩
            · obtain ⟨o, ho', hmo⟩ := (htail x).mpr ⟨hT, hphi⟩
              exact ⟨o, List.mem_cons_of_mem _ ho', hmo⟩

/-- Main characterization: under `varsAligned`, an error-free evaluation
of any expression on a candidate set contained in the range universe
filters it by the expression's `filterChar` predicate (and its output
again lies in the universe). -/
theorem evalChar_aux (ctx : Ctx) (G : Registry) (flags : Flags)
    (S : List Range) (hva : varsAligned (rangeUniverse G S)) :
    ∀ (N : Nat) (e : BRE) (T : List Range) (steps : List Step)
      (out : List Range) (st : List Step),
      sizeOf e ≤ N → subOfS T (rangeUniverse G S) →
      _evaluate_expression ctx e G T steps flags = .ok (out, st) →
      subOfS out (rangeUniverse G S) ∧
      ∀ x, memB x out = true ↔ (memB x T = true ∧ filterChar ctx G S e x) := by
  intro N
  induction N with
  | zero =>
    intro e T steps out st hsize
    obtain ⟨op, pid, opnd, ch⟩ := e
    simp only [BooleanRuleExpression.mk.sizeOf_spec] at hsize
    omega
  | succ n ih =>
    intro e T steps out st hsize hsub heval
    obtain ⟨op, pid, opnd, ch⟩ := e
    unfold _evaluate_expression at heval
    split at heval
    · -- composite operators
      split at heval
      next => cases heval
      next cs =>
        have hb : ∀ c ∈ cs, sizeOf c ≤ n := by
          intro c hcmem
          have h1 : sizeOf c < sizeOf cs := List.sizeOf_lt_of_mem hcmem
          simp only [BooleanRuleExpression.mk.sizeOf_spec,
            Option.some.sizeOf_spec] at hsize
          omega
        split at heval
        · -- AND_EITHER
          split at heval
          next => cases heval
          next outs steps' hee =>
            simp only [Except.ok.injEq, Prod.mk.injEq] at heval
            obtain ⟨rfl, rfl⟩ := heval
            obtain ⟨hsubs, heither⟩ := evalEitherChildren_char ih cs hb T
              steps outs steps' hsub hee
            constructor
            · intro r hr
              obtain ⟨o, ho, hro⟩ := List.mem_flatten.mp (interR_sub_right hr)
              exact hsubs o ho r hro
            · intro x
              rw [show filterChar ctx G S (.mk .AND_EITHER pid opnd (some cs))
                x = filterCharAny ctx G S cs x from rfl]
              rw [memB_interR, memB_flatten]
              constructor
              · rintro ⟨hT, hex⟩
                exact ⟨hT, ((heither x).mp hex).2⟩
              · rintro ⟨hT, hphi⟩
                exact ⟨hT, (heither x).mpr ⟨hT, hphi⟩⟩
        · -- AND_ALL
          split at heval
          next => cases heval
          next finalRanges steps' hall =>
            simp only [Except.ok.injEq, Prod.mk.injEq] at heval
            obtain ⟨rfl, rfl⟩ := heval
            obtain ⟨hsubO, hchar⟩ := evalAllChildren_char ih cs hb T steps
              finalRanges steps' hsub hall
            refine ⟨hsubO, fun x => ?_⟩
            rw [show filterChar ctx G S (.mk .AND_ALL pid opnd (some cs)) x =
              filterCharAll ctx G S cs x from rfl]
            exact hchar x
        · -- unreachable arm
          cases heval
    · -- leaves
      split at heval
      next => cases heval
      next => exact evalSingleChar hsub hva heval

/-- Characterization of an evaluation started on the candidate set itself. -/
theorem evalChar {ctx : Ctx} {G : Registry} {flags : Flags} {S : List Range}
    {e : BRE} {steps : List Step} {out : List Range} {st : List Step}
    (hva : varsAligned (rangeUniverse G S))
    (h : _evaluate_expression ctx e G S steps flags = .ok (out, st)) :
    ∀ x, memB x out = true ↔ (memB x S = true ∧ filterChar ctx G S e x) :=
  (evalChar_aux ctx G flags S hva (sizeOf e) e S steps out st (le_refl _)
    (subOfS_univ_left G S) h).2

theorem filterCharAll_cons {ctx : Ctx} {G : Registry} {S : List Range}
    {c : BRE} {rest : List BRE} {x : Range} :
    filterCharAll ctx G S (c :: rest) x ↔
      (filterChar ctx G S c x ∧ filterCharAll ctx G S rest x) :=
  Iff.rfl

/-- The conjunction of children filters is invariant under permutation. -/
theorem filterCharAll_perm {ctx : Ctx} {G : Registry} {S : List Range}
    {x : Range} {cs cs' : List BRE} (hp : cs.Perm cs') :
    (filterCharAll ctx G S cs x ↔ filterCharAll ctx G S cs' x) := by
  induction hp with
  | nil => exact Iff.rfl
  | cons c _ ih =>
    rw [filterCharAll_cons, filterCharAll_cons]
    exact and_congr_right (fun _ => ih)
  | swap a b l =>
    rw [filterCharAll_cons, filterCharAll_cons, filterCharAll_cons,
      filterCharAll_cons]
    tauto
  | trans _ _ ih1 ih2 => exact ih1.trans ih2

/-! ### The arbitrary-code-execution gate -/

/-- The flag dictionary explicitly enables arbitrary code execution. -/
def rceEnabled (flags : Flags) : Prop :=
  ∃ fl, flags = some fl ∧ fl ≠ [] ∧
    List.lookup RCE_RULE_FLAG fl = some true

/-- The flag dictionary is absent, empty, or maps the flag to `False`
(Python `not flags or not flags[RCE_RULE_FLAG]`). -/
def rceDisabled (flags : Flags) : Prop :=
  flags = none ∨ flags = some [] ∨
    ∃ fl, flags = some fl ∧ List.lookup RCE_RULE_FLAG fl = some false

/-- With the flag enabled, a leaf step never fails with the dedicated
arbitrary-code-execution exit code. -/
theorem evalSingleNoRce {ctx : Ctx} {G : Registry} {flags : Flags}
    {T : List Range} {steps : List Step} {e : BRE} {err : EvalError}
    (hrce : rceEnabled flags)
    (h : _evaluate_single_expression ctx e G T steps flags = .error err) :
    err ≠ .semgrepError (some NEED_ARBITRARY_CODE_EXEC_EXIT_CODE) := by
  obtain ⟨fl, rfl, hne, hlk⟩ := hrce
  obtain ⟨op, pid, opnd, ch⟩ := e
  cases op with
  | AND =>
    simp only [_evaluate_single_expression, BRE.operator] at h
    cases h
  | AND_NOT =>
    simp only [_evaluate_single_expression, BRE.operator] at h
    cases h
  | AND_INSIDE =>
    simp only [_evaluate_single_expression, BRE.operator] at h
    cases h
  | AND_NOT_INSIDE =>
    simp only [_evaluate_single_expression, BRE.operator] at h
    cases h
  | REGEX =>
    simp only [_evaluate_single_expression, BRE.operator] at h
    cases h
  | NOT_REGEX =>
    simp only [_evaluate_single_expression, BRE.operator] at h
    cases h
  | METAVARIABLE_REGEX =>
    simp only [_evaluate_single_expression, BRE.operator, BRE.operand] at h
    split at h
    next => cases h
    next =>
      obtain rfl : EvalError.semgrepError none = err := by simpa using h
      simp
  | METAVARIABLE_COMPARISON =>
    simp only [_evaluate_single_expression, BRE.operator, BRE.operand] at h
    split at h
    next => cases h
    next =>
      obtain rfl : EvalError.semgrepError none = err := by simpa using h
      simp
  | AND_EITHER =>
    simp only [_evaluate_single_expression, BRE.operator] at h
    obtain rfl : EvalError.unknownOperatorError = err := by simpa using h
    simp
  | AND_ALL =>
    simp only [_evaluate_single_expression, BRE.operator] at h
    obtain rfl : EvalError.unknownOperatorError = err := by simpa using h
    simp
  | WHERE_PYTHON =>
    simp only [_evaluate_single_expression, BRE.operator, BRE.operand] at h
    have hempty : fl.isEmpty = false := by
      cases fl with
      | nil => exact absurd rfl hne
      | cons a l => rfl
    rw [hempty] at h
    rw [if_neg (by simp)] at h
    split at h
    next heq => rw [hlk] at heq; cases heq
    next b heq =>
      rw [hlk] at heq
      obtain rfl : true = b := by simpa using heq
      rw [if_neg (by simp)] at h
      split at h
      next code =>
        split at h
        next err2 hwf =>
          have heq2 : err2 = err := by simpa using h
          rw [← heq2, whereFilter_error_shape hwf]
          simp
        next => cases h
      next =>
        obtain rfl : EvalError.semgrepError none = err := by simpa using h
        simp

/-- With the flag enabled, the `AND_EITHER` child list never fails with
the dedicated exit code, assuming the property for each child. -/
theorem evalEitherChildren_noRce {ctx : Ctx} {G : Registry} {flags : Flags}
    {n : Nat}
    (IH : ∀ (e : BRE) (T : List Range) (steps : List Step) (err : EvalError),
      sizeOf e ≤ n →
      _evaluate_expression ctx e G T steps flags = .error err →
      err ≠ .semgrepError (some NEED_ARBITRARY_CODE_EXEC_EXIT_CODE)) :
    ∀ (cs : List BRE), (∀ c ∈ cs, sizeOf c ≤ n) →
      ∀ (T : List Range) (steps : List Step) (err : EvalError),
        evalEitherChildren ctx cs G T steps flags = .error err →
        err ≠ .semgrepError (some NEED_ARBITRARY_CODE_EXEC_EXIT_CODE) := by
  intro cs
  induction cs with
  | nil => intro _ T steps err h; unfold evalEitherChildren at h; cases h
  | cons c rest ihl =>
    intro hb T steps err h
    unfold evalEitherChildren at h
    split at h
    next err2 hc =>
      have heq : err2 = err := by simpa using h
      rw [← heq]
      exact IH c T steps err2 (hb c (List.mem_cons_self c rest)) hc
    next out1 steps' hc =>
      split at h
      next err2 hrest =>
        have heq : err2 = err := by simpa using h
        rw [← heq]
        exact ihl (fun c' hc' => hb c' (List.mem_cons_of_mem _ hc'))
          T steps' err2 hrest
      next => cases h

/-- With the flag enabled, the `AND_ALL` loop never fails with the
dedicated exit code, assuming the property for each child. -/
theorem evalAllChildren_noRce {ctx : Ctx} {G : Registry} {flags : Flags}
    {n : Nat}
    (IH : ∀ (e : BRE) (T : List Range) (steps : List Step) (err : EvalError),
      sizeOf e ≤ n →
      _evaluate_expression ctx e G T steps flags = .error err →
      err ≠ .semgrepError (some NEED_ARBITRARY_CODE_EXEC_EXIT_CODE)) :
    ∀ (cs : List BRE), (∀ c ∈ cs, sizeOf c ≤ n) →
      ∀ (T : List Range) (steps : List Step) (err : EvalError),
        evalAllChildren ctx cs G T steps flags = .error err →
        err ≠ .semgrepError (some NEED_ARBITRARY_CODE_EXEC_EXIT_CODE) := by
  intro cs
  induction cs with
  | nil => intro _ T steps err h; unfold evalAllChildren at h; cases h
  | cons c rest ihl =>
    intro hb T steps err h
    unfold evalAllChildren at h
    split at h
    next err2 hc =>
      have heq : err2 = err := by simpa using h
      rw [← heq]
      exact IH c T steps err2 (hb c (List.mem_cons_self c rest)) hc
    next remaining steps' hc =>
      exact ihl (fun c' hc' => hb c' (List.mem_cons_of_mem _ hc'))
        (interR T remaining) steps' err h

/-- With the flag enabled, no evaluation fails with the dedicated
arbitrary-code-execution exit code. -/
theorem evalNoRce_aux (ctx : Ctx) (G : Registry) (flags : Flags)
    (hrce : rceEnabled flags) :
    ∀ (N : Nat) (e : BRE) (T : List Range) (steps : List Step)
      (err : EvalError), sizeOf e ≤ N →
      _evaluate_expression ctx e G T steps flags = .error err →
      err ≠ .semgrepError (some NEED_ARBITRARY_CODE_EXEC_EXIT_CODE) := by
  intro N
  induction N with
  | zero =>
    intro e T steps err hsize
    obtain ⟨op, pid, opnd, ch⟩ := e
    simp only [BooleanRuleExpression.mk.sizeOf_spec] at hsize
    omega
  | succ n ih =>
    intro e T steps err hsize heval
    obtain ⟨op, pid, opnd, ch⟩ := e
    unfold _evaluate_expression at heval
    split at heval
    · split at heval
      next =>
        obtain rfl : EvalError.semgrepError none = err := by simpa using heval
        simp
      next cs =>
        have hb : ∀ c ∈ cs, sizeOf c ≤ n := by
          intro c hcmem
          have h1 : sizeOf c < sizeOf cs := List.sizeOf_lt_of_mem hcmem
          simp only [BooleanRuleExpression.mk.sizeOf_spec,
            Option.some.sizeOf_spec] at hsize
          omega
        split at heval
        · split at heval
          next err2 hee =>
            have heq : err2 = err := by simpa using heval
            rw [← heq]
            exact evalEitherChildren_noRce (fun e' T' s' e'' hs he =>
              ih e' T' s' e'' hs he) cs hb T steps err2 hee
          next => cases heval
        · split at heval
          next err2 hall =>
            have heq : err2 = err := by simpa using heval
            rw [← heq]
            exact evalAllChildren_noRce (fun e' T' s' e'' hs he =>
              ih e' T' s' e'' hs he) cs hb T steps err2 hall
          next => cases heval
        · obtain rfl : EvalError.unknownOperatorError = err := by
            simpa using heval
          simp
    · split at heval
      next =>
        obtain rfl : EvalError.semgrepError none = err := by simpa using heval
        simp
      next => exact evalSingleNoRce hrce heval

/-! ### Helper lemmas for the interpolation functions -/

theorem lookup_mem_keys {mv : List (String × String)} {k : String}
    (h : k ∈ mv.map Prod.fst) : ∃ v, List.lookup k mv = some v := by
  induction mv with
  | nil => simp at h
  | cons q rest ih =>
    by_cases hk : q.1 = k
    · exact ⟨q.2, by simp [List.lookup, hk]⟩
    · have : k ∈ rest.map Prod.fst := by
        rcases List.mem_cons.mp h with h1 | h1
        · exact absurd h1.symm hk
        · exact h1
      obtain ⟨v, hv⟩ := ih this
      refine ⟨v, ?_⟩
      have hbeq : (k == q.1) = false :=
        beq_eq_false_iff_ne.mpr (fun hkq => hk hkq.symm)
      simp only [List.lookup, hbeq]
      exact hv

theorem lookup_self {mv : List (String × String)}
    (hnd : (mv.map Prod.fst).Nodup) :
    ∀ p ∈ mv, List.lookup p.1 mv = some p.2 := by
  induction mv with
  | nil => simp
  | cons q rest ih =>
    intro p hp
    rw [List.map_cons, List.nodup_cons] at hnd
    rcases List.mem_cons.mp hp with rfl | hp'
    · simp [List.lookup]
    · have hne : q.1 ≠ p.1 := by
        intro hqp
        exact hnd.1 (hqp ▸ List.mem_map_of_mem Prod.fst hp')
      have hbeq : (p.1 == q.1) = false :=
        beq_eq_false_iff_ne.mpr (fun hpq => hne hpq.symm)
      simp only [List.lookup, hbeq]
      exact ih hnd.2 p hp'

theorem fixGo_total (pm : PatternMatch) :
    ∀ (keys : List String) (s : String),
      (∀ k ∈ keys, k ∈ pm.metavars.map Prod.fst) →
      ∃ v, fixGo pm s keys = .ok v := by
  intro keys
  induction keys with
  | nil => exact fun s _ => ⟨s, rfl⟩
  | cons k rest ih =>
    intro s hk
    obtain ⟨v, hv⟩ := lookup_mem_keys (hk k (List.mem_cons_self k rest))
    obtain ⟨w, hw⟩ := ih (pyReplace s k v)
      (fun k' hk' => hk k' (List.mem_cons_of_mem _ hk'))
    refine ⟨w, ?_⟩
    unfold fixGo
    rw [show pm.getMetavariableValue k = some v from hv]
    exact hw

theorem fixGo_keys (pm : PatternMatch) :
    ∀ (l : List (String × String)) (s : String),
      (∀ p ∈ l, pm.getMetavariableValue p.1 = some p.2) →
      fixGo pm s (l.map Prod.fst) =
        .ok (l.foldl (fun s kv => pyReplace s kv.1 kv.2) s) := by
  intro l
  induction l with
  | nil => exact fun s _ => rfl
  | cons p rest ih =>
    intro s hp
    rw [List.map_cons]
    unfold fixGo
    rw [show pm.getMetavariableValue p.1 = some p.2 from
      hp p (List.mem_cons_self p rest)]
    rw [List.foldl_cons]
    exact ih (pyReplace s p.1 p.2) (fun q hq => hp q (List.mem_cons_of_mem _ hq))

/-! ### Characterization of the spec-procedure `AND_ALL` -/

theorem evalAndAllSpecGo_char {ctx : Ctx} {G : Registry} {flags : Flags}
    {S : List Range} (hva : varsAligned (rangeUniverse G S)) :
    ∀ (rem : List BRE) (running outS : List Range) (A : Range → Prop),
      (∀ x, memB x running = true ↔ (memB x S = true ∧ A x)) →
      evalAndAllSpecGo ctx G S flags rem running = .ok outS →
      ∀ x, memB x outS = true ↔
        (memB x S = true ∧ A x ∧ filterCharAll ctx G S rem x) := by
  intro rem
  induction rem with
  | nil =>
    intro running outS A hrun h x
    obtain rfl : running = outS := by simpa [evalAndAllSpecGo] using h
    rw [hrun x, show filterCharAll ctx G S [] x = True from rfl]
    tauto
  | cons c rest ih =>
    intro running outS A hrun h x
    unfold evalAndAllSpecGo at h
    split at h
    next => cases h
    next out1 st1 hc =>
      have hchar := evalChar hva hc
      have hrun2 : ∀ x, memB x (interR running out1) = true ↔
          (memB x S = true ∧ (A x ∧ filterChar ctx G S c x)) := by
        intro y
        rw [memB_interR, hrun y, hchar y]
        tauto
      have := ih (interR running out1) outS _ hrun2 h x
      rw [this, filterCharAll_cons]
      tauto

/-! ### Concrete instances used by the witnesses and counterexamples -/

namespace Ex

def r1 : Range := ⟨0, 10, ["$X"]⟩

def r2 : Range := ⟨20, 30, ["$BAD"]⟩

def pm1 : PatternMatch := ⟨"p1", r1, [("$X", "x")]⟩

def pm2 : PatternMatch := ⟨"p2", r2, [("$BAD", "b")]⟩

def G0 : Registry := [("p1", [pm1]), ("p2", [pm2])]

def S0 : List Range := [r1, r2]

/-- A where-python interpreter oracle: the user predicate produces a
non-boolean value exactly on matches binding `$BAD`, and `True` elsewhere. -/
def ctx0 : Ctx :=
  ⟨fun _ mv => if (List.lookup "$BAD" mv).isSome then .nonBoolean
    else .val true,
   fun _ _ => true⟩

def flags0 : Flags := some [(RCE_RULE_FLAG, true)]

def cAnd : BRE := .mk .AND (some "p1") none none

def cRegex : BRE := .mk .REGEX (some "p2") none none

def cWP : BRE := .mk .WHERE_PYTHON none (some (.str "code")) none

def eAll12 : BRE := .mk .AND_ALL none none (some [cAnd, cWP])

def eAll21 : BRE := .mk .AND_ALL none none (some [cWP, cAnd])

def eAllAR : BRE := .mk .AND_ALL none none (some [cAnd, cRegex])

def eAllRA : BRE := .mk .AND_ALL none none (some [cRegex, cAnd])

def r4 : Range := ⟨0, 5, ["$N"]⟩

def pmN (v : String) : PatternMatch := ⟨"p", r4, [("$N", v)]⟩

def opN : OperandMap := ⟨"$N", "", "$N > 5", some true, none⟩

def ruleFix : Rule := ⟨"msg", some "$X"⟩

def pmFix : PatternMatch := ⟨"p", r1, [("$Y", "y")]⟩

def pmCur : PatternMatch := ⟨"pc", ⟨4, 6, []⟩, [("$F", "f")]⟩

def qBig : PatternMatch := ⟨"pb", ⟨0, 100, ["$X"]⟩, [("$X", "big")]⟩

def qSmall : PatternMatch := ⟨"ps", ⟨3, 7, ["$X"]⟩, [("$X", "small")]⟩

def ruleMsg : Rule := ⟨"found $X", none⟩

/-- Two matches on the *same* interval `[0,10]`: inserted first, one
binding nothing (its range carries no variable names), then one binding
`$X` — the configuration where the surviving representative matters. -/
def rA : Range := ⟨0, 10, []⟩

def rBv : Range := ⟨0, 10, ["$X"]⟩

def pmA : PatternMatch := ⟨"q", rA, []⟩

def pmB : PatternMatch := ⟨"p", rBv, [("$X", "foo")]⟩

def G1 : Registry := [("q", [pmA]), ("p", [pmB])]

/-- The universe set built by `evaluate_expression` keeps the
first-inserted representative `rA`. -/
def S1 : List Range := [rA]

def opX : OperandMap := ⟨"$X", "foo", "", none, none⟩

def cAndP : BRE := .mk .AND (some "p") none none

def cMVR : BRE := .mk .METAVARIABLE_REGEX none (some (.map opX)) none

def eMA : BRE := .mk .AND_ALL none none (some [cAndP, cMVR])

def eMA2 : BRE := .mk .AND_ALL none none (some [cMVR, cAndP])

end Ex

/-! ### Claim theorems -/

theorem interR_nil (S : List Range) : interR S [] = [] := rfl

theorem diffR_nil (S : List Range) : diffR S [] = S := by
  simp [diffR, memB]

/-- One leaf step never adds a range class that was not a candidate. -/
theorem evalSingleShrink {ctx : Ctx} {G : Registry} {flags : Flags}
    {e : BRE} {T : List Range} {steps : List Step} {out : List Range}
    {st : List Step}
    (h : _evaluate_single_expression ctx e G T steps flags = .ok (out, st)) :
    ∀ x, memB x out = true → memB x T = true := by
  obtain ⟨op, pid, opnd, ch⟩ := e
  cases op with
  | AND =>
    simp only [_evaluate_single_expression, BRE.operator, BRE.pattern_id,
      BRE.operand, Except.ok.injEq, Prod.mk.injEq] at h
    obtain ⟨rfl, rfl⟩ := h
    exact fun x hx => (memB_interR.mp hx).1
  | AND_NOT =>
    simp only [_evaluate_single_expression, BRE.operator, BRE.pattern_id,
      BRE.operand, Except.ok.injEq, Prod.mk.injEq] at h
    obtain ⟨rfl, rfl⟩ := h
    exact fun x hx => (memB_diffR.mp hx).1
  | AND_INSIDE =>
    simp only [_evaluate_single_expression, BRE.operator, BRE.pattern_id,
      BRE.operand, Except.ok.injEq, Prod.mk.injEq] at h
    obtain ⟨rfl, rfl⟩ := h
    exact fun x hx => memB_filter_sub hx
  | AND_NOT_INSIDE =>
    simp only [_evaluate_single_expression, BRE.operator, BRE.pattern_id,
      BRE.operand, Except.ok.injEq, Prod.mk.injEq] at h
    obtain ⟨rfl, rfl⟩ := h
    exact fun x hx => memB_filter_sub hx
  | REGEX =>
    simp only [_evaluate_single_expression, BRE.operator, BRE.pattern_id,
      BRE.operand, Except.ok.injEq, Prod.mk.injEq] at h
    obtain ⟨rfl, rfl⟩ := h
    exact fun x hx => (memB_interR.mp hx).1
  | NOT_REGEX =>
    simp only [_evaluate_single_expression, BRE.operator, BRE.pattern_id,
      BRE.operand, Except.ok.injEq, Prod.mk.injEq] at h
    obtain ⟨rfl, rfl⟩ := h
    exact fun x hx => memB_filter_sub hx
  | WHERE_PYTHON =>
    simp only [_evaluate_single_expression, BRE.operator, BRE.pattern_id,
      BRE.operand] at h
    split at h
    next => cases h
    next fl =>
      split at h
      next => cases h
      next =>
        split at h
        next => cases h
        next b hlk =>
          split at h
          next => cases h
          next hb =>
            split at h
            next code =>
              split at h
              next => cases h
              next output hwf =>
                simp only [Except.ok.injEq, Prod.mk.injEq] at h
                obtain ⟨rfl, rfl⟩ := h
                intro x hx
                obtain ⟨pm, _, h1, h2, _⟩ :=
                  (whereFilter_ok_mem hwf x).mp (memB_dedupR.mp hx)
                exact (memB_congr h1).mpr h2
            next => cases h
  | METAVARIABLE_REGEX =>
    simp only [_evaluate_single_expression, BRE.operator, BRE.pattern_id,
      BRE.operand] at h
    split at h
    next m =>
      simp only [Except.ok.injEq, Prod.mk.injEq] at h
      obtain ⟨rfl, rfl⟩ := h
      exact fun x hx => memB_filter_sub hx
    next => cases h
  | METAVARIABLE_COMPARISON =>
    simp only [_evaluate_single_expression, BRE.operator, BRE.pattern_id,
      BRE.operand] at h
    split at h
    next m =>
      simp only [Except.ok.injEq, Prod.mk.injEq] at h
      obtain ⟨rfl, rfl⟩ := h
      exact fun x hx => memB_filter_sub hx
    next => cases h
  | AND_EITHER =>
    simp only [_evaluate_single_expression, BRE.operator] at h
    cases h
  | AND_ALL =>
    simp only [_evaluate_single_expression, BRE.operator] at h
    cases h

/-- The `AND_ALL` loop only narrows the running set (no child property is
needed: the loop intersects back into the running set each time). -/
theorem evalAllShrink {ctx : Ctx} {G : Registry} {flags : Flags} :
    ∀ (cs : List BRE) (T : List Range) (steps : List Step) (out : List Range)
      (st : List Step),
      evalAllChildren ctx cs G T steps flags = .ok (out, st) →
      ∀ x, memB x out = true → memB x T = true := by
  intro cs
  induction cs with
  | nil =>
    intro T steps out st h x hx
    unfold evalAllChildren at h
    simp only [Except.ok.injEq, Prod.mk.injEq] at h
    obtain ⟨rfl, rfl⟩ := h
    exact hx
  | cons c rest ihl =>
    intro T steps out st h x hx
    unfold evalAllChildren at h
    split at h
    next => cases h
    next remaining steps' hc =>
      exact (memB_interR.mp (ihl _ _ _ _ h x hx)).1

/-- Class-level shrinking for the full evaluator. -/
theorem evalShrink {ctx : Ctx} {G : Registry} {flags : Flags} {e : BRE}
    {T : List Range} {steps : List Step} {out : List Range} {st : List Step}
    (h : _evaluate_expression ctx e G T steps flags = .ok (out, st)) :
    ∀ x, memB x out = true → memB x T = true := by
  obtain ⟨op, pid, opnd, ch⟩ := e
  unfold _evaluate_expression at h
  split at h
  · split at h
    next => cases h
    next cs =>
      split at h
      · split at h
        next => cases h
        next outs steps' hee =>
          simp only [Except.ok.injEq, Prod.mk.injEq] at h
          obtain ⟨rfl, rfl⟩ := h
          exact fun x hx => (memB_interR.mp hx).1
      · split at h
        next => cases h
        next finalRanges steps' hall =>
          simp only [Except.ok.injEq, Prod.mk.injEq] at h
          obtain ⟨rfl, rfl⟩ := h
          exact evalAllShrink cs T steps finalRanges steps' hall
      · cases h
  · split at h
    next => cases h
    next => exact evalSingleShrink h

/-- Gate shared by the where-python claims: with the flag absent, empty or
false, the leaf immediately fails with the dedicated exit code. -/
theorem wpGateError (ctx : Ctx) (G : Registry) (S : List Range)
    (steps : List Step) (pid : Option String) (opnd : Option Operand)
    (flags : Flags) (h : rceDisabled flags) :
    _evaluate_single_expression ctx (.mk .WHERE_PYTHON pid opnd none) G S
      steps flags
      = .error (.semgrepError (some NEED_ARBITRARY_CODE_EXEC_EXIT_CODE)) := by
  rcases h with rfl | rfl | ⟨fl, rfl, hlk⟩
  · rfl
  · rfl
  · cases hfl : fl.isEmpty with
    | true => simp [_evaluate_single_expression, BRE.operator, hfl]
    | false => simp [_evaluate_single_expression, BRE.operator, hfl, hlk]

/-- C8: Shrinking invariant — for every expression (leaf or composite),
every registry and every input candidate range set, an error-free
recursive evaluation returns a subset of the input candidate set: no
evaluation step ever adds a range that was not already a candidate. -/
theorem evaluation_shrinks_candidates (ctx : Ctx) (e : BRE) (G : Registry)
    (S : List Range) (flags : Flags) (out : List Range)
    (h : evalRanges ctx e G S flags = .ok out) :
    ∀ x, memB x out = true → memB x S = true := by
  unfold evalRanges at h
  cases heval : _evaluate_expression ctx e G S [] flags with
  | error err => rw [heval] at h; cases h
  | ok pr =>
    rw [heval] at h
    obtain ⟨o, st⟩ := pr
    obtain rfl : o = out := by simpa [Except.map] using h
    exact evalShrink heval

/-- Witness for C8 at a concrete run. -/
theorem evaluation_shrinks_candidates_witness :
    evalRanges Ex.ctx0 Ex.cAnd Ex.G0 Ex.S0 Ex.flags0 = .ok [Ex.r1] ∧
    (memB Ex.r1 [Ex.r1] = true → memB Ex.r1 Ex.S0 = true) :=
  ⟨by decide, fun hx => evaluation_shrinks_candidates Ex.ctx0 Ex.cAnd Ex.G0
    Ex.S0 Ex.flags0 [Ex.r1] (by decide) Ex.r1 hx⟩

/-- C6: AND/AND_NOT duality — for every pattern id and every input
candidate range set, the `AND` leaf's output and the `AND_NOT` leaf's
output (each evaluated against that same candidate set) succeed, their
union is the candidate set, and their intersection is empty. -/
theorem and_and_not_partition (ctx : Ctx) (G : Registry) (S : List Range)
    (pid : Option String) (opnd : Option Operand) (flags : Flags) :
    ∃ outA outN,
      evalSingleRanges ctx (.mk .AND pid opnd none) G S flags = .ok outA ∧
      evalSingleRanges ctx (.mk .AND_NOT pid opnd none) G S flags = .ok outN ∧
      (∀ x, memB x S = true ↔ (memB x outA = true ∨ memB x outN = true)) ∧
      (∀ x, ¬ (memB x outA = true ∧ memB x outN = true)) := by
  refine ⟨interR S (rangesForPattern pid G), diffR S (rangesForPattern pid G),
    rfl, rfl, ?_, ?_⟩
  · intro x
    rw [memB_interR, memB_diffR]
    by_cases hx : memB x (rangesForPattern pid G) = true <;> tauto
  · intro x
    rw [memB_interR, memB_diffR]
    tauto

/-- C9: a leaf whose pattern id is `None` or refers to a pattern with no
matches evaluates without error, treating the pattern's range set as
empty: `AND`, `REGEX` and `AND_INSIDE` return the empty set, while
`AND_NOT` and `AND_NOT_INSIDE` return the input candidate set unchanged. -/
theorem empty_pattern_leaf_semantics (ctx : Ctx) (G : Registry)
    (S : List Range) (pid : Option String) (opnd : Option Operand)
    (flags : Flags)
    (h : pid = none ∨ ∃ p, pid = some p ∧ Registry.get G p = []) :
    evalSingleRanges ctx (.mk .AND pid opnd none) G S flags = .ok [] ∧
    evalSingleRanges ctx (.mk .REGEX pid opnd none) G S flags = .ok [] ∧
    evalSingleRanges ctx (.mk .AND_INSIDE pid opnd none) G S flags = .ok [] ∧
    evalSingleRanges ctx (.mk .AND_NOT pid opnd none) G S flags = .ok S ∧
    evalSingleRanges ctx (.mk .AND_NOT_INSIDE pid opnd none) G S flags
      = .ok S := by
  have hrfp : rangesForPattern pid G = [] := by
    rcases h with rfl | ⟨p, rfl, hp⟩
    · rfl
    · by_cases hp0 : p = "" <;> simp [rangesForPattern, hp0, hp]
  refine ⟨?_, ?_, ?_, ?_, ?_⟩ <;>
    simp [evalSingleRanges, _evaluate_single_expression, BRE.operator,
      BRE.pattern_id, hrfp, interR_nil, diffR_nil, List.filter_eq_self,
      Except.map]

/-- Witness for C9 at a pattern id absent from the registry. -/
theorem empty_pattern_leaf_semantics_witness :
    ((some "q" : Option String) = none ∨
      ∃ p, (some "q" : Option String) = some p ∧ Registry.get Ex.G0 p = []) ∧
    evalSingleRanges Ex.ctx0 (.mk .AND (some "q") none none) Ex.G0 Ex.S0
      Ex.flags0 = .ok [] := by
  have h : (some "q" : Option String) = none ∨
      ∃ p, (some "q" : Option String) = some p ∧ Registry.get Ex.G0 p = [] :=
    Or.inr ⟨"q", rfl, by decide⟩
  exact ⟨h, (empty_pattern_leaf_semantics Ex.ctx0 Ex.G0 Ex.S0 (some "q")
    none Ex.flags0 h).1⟩

/-- C10: with the arbitrary-code-execution flag disabled, reaching a
`WHERE_PYTHON` leaf raises the dedicated error unconditionally — for every
operand (including a non-string one) and every candidate set (including
the empty one), before any operand-shape validation. -/
theorem where_python_gate_before_validation (ctx : Ctx) (G : Registry)
    (S : List Range) (steps : List Step) (pid : Option String)
    (opnd : Option Operand) (flags : Flags) (h : rceDisabled flags) :
    _evaluate_single_expression ctx (.mk .WHERE_PYTHON pid opnd none) G S
      steps flags
      = .error (.semgrepError (some NEED_ARBITRARY_CODE_EXEC_EXIT_CODE)) :=
  wpGateError ctx G S steps pid opnd flags h

/-- Witness for C10: empty candidate set and a non-string operand. -/
theorem where_python_gate_before_validation_witness :
    rceDisabled (some [(RCE_RULE_FLAG, false)]) ∧
    _evaluate_single_expression Ex.ctx0
      (.mk .WHERE_PYTHON none (some (.map Ex.opN)) none) Ex.G0 [] []
      (some [(RCE_RULE_FLAG, false)])
      = .error (.semgrepError (some NEED_ARBITRARY_CODE_EXEC_EXIT_CODE)) := by
  have h : rceDisabled (some [(RCE_RULE_FLAG, false)]) :=
    Or.inr (Or.inr ⟨[(RCE_RULE_FLAG, false)], rfl, by decide⟩)
  exact ⟨h, where_python_gate_before_validation Ex.ctx0 Ex.G0 [] [] none
    (some (.map Ex.opN)) (some [(RCE_RULE_FLAG, false)]) h⟩

/-- C3: evaluating a `WHERE_PYTHON` leaf with the capability flag disabled
(or no flags) fails with a `SemgrepError` carrying the dedicated
`NEED_ARBITRARY_CODE_EXEC_EXIT_CODE` discriminant; and with the flag
enabled no evaluation of any expression ever produces an error with that
discriminant, so the discriminant uniquely identifies this failure kind. -/
theorem where_python_execution_not_allowed :
    (∀ (ctx : Ctx) (G : Registry) (S : List Range) (steps : List Step)
      (pid : Option String) (opnd : Option Operand) (flags : Flags),
      rceDisabled flags →
      _evaluate_expression ctx (.mk .WHERE_PYTHON pid opnd none) G S steps
        flags
        = .error (.semgrepError (some NEED_ARBITRARY_CODE_EXEC_EXIT_CODE))) ∧
    (∀ (ctx : Ctx) (G : Registry) (e : BRE) (S : List Range)
      (steps : List Step) (flags : Flags) (err : EvalError),
      rceEnabled flags →
      _evaluate_expression ctx e G S steps flags = .error err →
      err ≠ .semgrepError (some NEED_ARBITRARY_CODE_EXEC_EXIT_CODE)) := by
  constructor
  · intro ctx G S steps pid opnd flags h
    unfold _evaluate_expression
    exact wpGateError ctx G S steps pid opnd flags h
  · intro ctx G e S steps flags err hrce heval
    exact evalNoRce_aux ctx G flags hrce (sizeOf e) e S steps err
      (le_refl _) heval

/-- Witness for C3: the disabled gate fires on a concrete leaf, and a
concrete fatal error produced under the enabled flag is distinguishable
from the dedicated discriminant. -/
theorem where_python_execution_not_allowed_witness :
    rceDisabled (none : Flags) ∧
    _evaluate_expression Ex.ctx0 (.mk .WHERE_PYTHON none (some (.str "code"))
      none) Ex.G0 Ex.S0 [] none
      = .error (.semgrepError (some NEED_ARBITRARY_CODE_EXEC_EXIT_CODE)) ∧
    rceEnabled Ex.flags0 ∧
    _evaluate_expression Ex.ctx0 Ex.eAll21 Ex.G0 Ex.S0 [] Ex.flags0
      = .error (.semgrepError none) ∧
    (EvalError.semgrepError none
      ≠ .semgrepError (some NEED_ARBITRARY_CODE_EXEC_EXIT_CODE)) := by
  have hen : rceEnabled Ex.flags0 :=
    ⟨[(RCE_RULE_FLAG, true)], rfl, by decide, by decide⟩
  refine ⟨Or.inl rfl, ?_, hen, by decide, ?_⟩
  · exact where_python_execution_not_allowed.1 Ex.ctx0 Ex.G0 Ex.S0 [] none
      (some (.str "code")) none (Or.inl rfl)
  · exact where_python_execution_not_allowed.2 Ex.ctx0 Ex.G0 Ex.eAll21 Ex.S0
      [] Ex.flags0 (.semgrepError none) hen (by decide)

/-- Counterexample to C7 as stated: a permutation of `AND_ALL` children
changes the outcome, in two independent ways.  First, errors: with
pattern `p1` matching `[0,10]` and a where-python child whose predicate
produces a non-boolean value on the match binding `$BAD` (range
`[20,30]`), the order `[AND p1, WHERE_PYTHON]` succeeds — the non-boolean
match was already filtered out of the shrinking candidate set — while the
reversed order fails with a fatal error.  Second, even with *both orders
error-free*: two matches share the interval `[0,10]` but bind different
variable sets (`rA` binds nothing, `rBv` binds `$X`), and
`intersection_update` adopts the child output's representative, so with
children `[AND p, METAVARIABLE_REGEX $X]` the surviving representative is
`rBv` and the regex keeps it, while the reversed order runs the regex on
the original representative `rA`, which binds nothing, and drops it — the
final sets `[rBv]` and `[]` differ even up to range equality. -/
theorem and_all_reorder_counterexample :
    (([Ex.cAnd, Ex.cWP].Perm [Ex.cWP, Ex.cAnd]) ∧
     evalRanges Ex.ctx0 Ex.eAll12 Ex.G0 Ex.S0 Ex.flags0 = .ok [Ex.r1] ∧
     evalRanges Ex.ctx0 Ex.eAll21 Ex.G0 Ex.S0 Ex.flags0
       = .error (.semgrepError none)) ∧
    (([Ex.cAndP, Ex.cMVR].Perm [Ex.cMVR, Ex.cAndP]) ∧
     evalRanges Ex.ctx0 Ex.eMA Ex.G1 Ex.S1 Ex.flags0 = .ok [Ex.rBv] ∧
     evalRanges Ex.ctx0 Ex.eMA2 Ex.G1 Ex.S1 Ex.flags0 = .ok [] ∧
     memB Ex.rBv [Ex.rBv] = true ∧
     memB Ex.rBv ([] : List Range) = false) :=
  ⟨⟨List.Perm.swap Ex.cWP Ex.cAnd [], by decide, by decide⟩,
   ⟨List.Perm.swap Ex.cMVR Ex.cAndP [], by decide, by decide, by decide,
    by decide⟩⟩

/-- C7 (amended): reordering the children of an `AND_ALL` yields the same
final surviving range set (up to range equality) provided *both* (a) the
two orders evaluate without error — a reordering may instead change
whether a fatal where-python non-boolean error is raised, because later
children only see the already-narrowed candidate set — and (b) any two
equal ranges among the candidates and the registry's match ranges bind the
same variable sets (`varsAligned`): otherwise `intersection_update`
adopting the child output's representative can swap which same-interval
range survives, changing what the vars-consulting metavariable leaves
see. -/
theorem and_all_reorder_same_result_when_both_ok (ctx : Ctx) (G : Registry)
    (S : List Range) (flags : Flags) (pid pid' : Option String)
    (opnd opnd' : Option Operand) (cs cs' : List BRE)
    (out out' : List Range) (hva : varsAligned (rangeUniverse G S))
    (hperm : cs.Perm cs')
    (h : evalRanges ctx (.mk .AND_ALL pid opnd (some cs)) G S flags = .ok out)
    (h' : evalRanges ctx (.mk .AND_ALL pid' opnd' (some cs')) G S flags
      = .ok out') :
    ∀ x, memB x out = true ↔ memB x out' = true := by
  unfold evalRanges at h h'
  cases heval : _evaluate_expression ctx (.mk .AND_ALL pid opnd (some cs)) G
      S [] flags with
  | error err => rw [heval] at h; cases h
  | ok pr =>
    rw [heval] at h
    obtain ⟨o, st⟩ := pr
    obtain rfl : o = out := by simpa [Except.map] using h
    cases heval' : _evaluate_expression ctx (.mk .AND_ALL pid' opnd'
        (some cs')) G S [] flags with
    | error err => rw [heval'] at h'; cases h'
    | ok pr' =>
      rw [heval'] at h'
      obtain ⟨o', st'⟩ := pr'
      obtain rfl : o' = out' := by simpa [Except.map] using h'
      intro x
      rw [evalChar hva heval x, evalChar hva heval' x]
      rw [show filterChar ctx G S (.mk .AND_ALL pid opnd (some cs)) x =
        filterCharAll ctx G S cs x from rfl]
      rw [show filterChar ctx G S (.mk .AND_ALL pid' opnd' (some cs')) x =
        filterCharAll ctx G S cs' x from rfl]
      exact and_congr_right (fun _ => filterCharAll_perm hperm)

/-- Witness for C7 (amended) at a concrete aligned, error-free pair of
orders. -/
theorem and_all_reorder_same_result_witness :
    varsAligned (rangeUniverse Ex.G0 Ex.S0) ∧
    ([Ex.cAnd, Ex.cRegex].Perm [Ex.cRegex, Ex.cAnd]) ∧
    evalRanges Ex.ctx0 Ex.eAllAR Ex.G0 Ex.S0 Ex.flags0 = .ok [] ∧
    evalRanges Ex.ctx0 Ex.eAllRA Ex.G0 Ex.S0 Ex.flags0 = .ok [] ∧
    (memB Ex.r1 ([] : List Range) = true ↔
      memB Ex.r1 ([] : List Range) = true) :=
  ⟨by decide, List.Perm.swap Ex.cRegex Ex.cAnd [], by decide, by decide,
    and_all_reorder_same_result_when_both_ok Ex.ctx0 Ex.G0 Ex.S0 Ex.flags0
      none none none none [Ex.cAnd, Ex.cRegex] [Ex.cRegex, Ex.cAnd] [] []
      (by decide) (List.Perm.swap Ex.cRegex Ex.cAnd []) (by decide)
      (by decide) Ex.r1⟩

/-- Counterexample to C1 as stated: the `AND_ALL` evaluator is a
left-to-right sequential-narrowing fold, not the claimed procedure that
evaluates every child against the original candidate set, and the two
differ observably in two independent ways.  First, errors: the code's
fold succeeds (the second child — a where-python whose predicate is
non-boolean on the `$BAD` match — only sees the narrowed set `{[0,10]}`)
while the claimed evaluate-each-child-against-the-original-set procedure
evaluates the predicate on the `$BAD` match and fails fatally.  Second,
even when *both are error-free*: two matches share interval `[0,10]` but
bind different variable sets, and because `intersection_update` adopts
the child output's representative, the code's fold hands the
`METAVARIABLE_REGEX` child the representative `rBv` binding `$X` (kept),
while the claimed procedure runs it on the original representative `rA`
binding nothing (dropped) — final sets `[rBv]` versus `[]`. -/
theorem and_all_sequential_narrowing_counterexample :
    (evalRanges Ex.ctx0 Ex.eAll12 Ex.G0 Ex.S0 Ex.flags0 = .ok [Ex.r1] ∧
     evalAndAllSpecProcedure Ex.ctx0 [Ex.cAnd, Ex.cWP] Ex.G0 Ex.S0 Ex.flags0
       = .error (.semgrepError none)) ∧
    (evalRanges Ex.ctx0 Ex.eMA Ex.G1 Ex.S1 Ex.flags0 = .ok [Ex.rBv] ∧
     evalAndAllSpecProcedure Ex.ctx0 [Ex.cAndP, Ex.cMVR] Ex.G1 Ex.S1
       Ex.flags0 = .ok [] ∧
     memB Ex.rBv [Ex.rBv] = true ∧
     memB Ex.rBv ([] : List Range) = false) :=
  ⟨⟨by decide, by decide⟩, ⟨by decide, by decide, by decide, by decide⟩⟩

/-- C1 (amended): `AND_ALL` is evaluated as a left-to-right
sequential-narrowing fold — child `i+1` receives the set already
intersected with child `i`'s output — not by evaluating each child against
the original candidate set; nevertheless, whenever *both* (a) the fold and
the evaluate-then-intersect procedure finish without error and (b) any two
equal ranges among the candidates and the registry's match ranges bind the
same variable sets (`varsAligned` — without it, `intersection_update`
adopting the child output's representative can change what the
vars-consulting metavariable leaves see), they produce the same final
range set (up to range equality). -/
theorem and_all_fold_agrees_with_evaluate_then_intersect (ctx : Ctx)
    (G : Registry) (S : List Range) (flags : Flags) (pid : Option String)
    (opnd : Option Operand) (cs : List BRE) (out outS : List Range)
    (hva : varsAligned (rangeUniverse G S))
    (h : evalRanges ctx (.mk .AND_ALL pid opnd (some cs)) G S flags = .ok out)
    (hs : evalAndAllSpecProcedure ctx cs G S flags = .ok outS) :
    ∀ x, memB x out = true ↔ memB x outS = true := by
  unfold evalRanges at h
  unfold evalAndAllSpecProcedure at hs
  cases heval : _evaluate_expression ctx (.mk .AND_ALL pid opnd (some cs)) G
      S [] flags with
  | error err => rw [heval] at h; cases h
  | ok pr =>
    rw [heval] at h
    obtain ⟨o, st⟩ := pr
    obtain rfl : o = out := by simpa [Except.map] using h
    have hspec := evalAndAllSpecGo_char hva cs S outS (fun _ => True)
      (fun x => by simp) hs
    intro x
    rw [evalChar hva heval x, hspec x]
    rw [show filterChar ctx G S (.mk .AND_ALL pid opnd (some cs)) x =
      filterCharAll ctx G S cs x from rfl]
    tauto

/-- Witness for C1 (amended) at a concrete aligned, error-free instance. -/
theorem and_all_fold_agrees_witness :
    varsAligned (rangeUniverse Ex.G0 Ex.S0) ∧
    evalRanges Ex.ctx0 Ex.eAllAR Ex.G0 Ex.S0 Ex.flags0 = .ok [] ∧
    evalAndAllSpecProcedure Ex.ctx0 [Ex.cAnd, Ex.cRegex] Ex.G0 Ex.S0
      Ex.flags0 = .ok [] ∧
    (memB Ex.r1 ([] : List Range) = true ↔
      memB Ex.r1 ([] : List Range) = true) :=
  ⟨by decide, by decide, by decide,
    and_all_fold_agrees_with_evaluate_then_intersect Ex.ctx0 Ex.G0 Ex.S0
      Ex.flags0 none none [Ex.cAnd, Ex.cRegex] [] [] (by decide) (by decide)
      (by decide) Ex.r1⟩

/-- C4: `METAVARIABLE_COMPARISON` semantics — with `strip` true the quote
characters are removed before parsing; the text parses as a float iff it
contains a decimal point, else as an integer in the given base (default
10, per `pyParseContent`); a text failing the applicable parse makes the
comparison false (the match is excluded) and the leaf step always
succeeds, so no error is raised; and in the concrete scenario `$N > 5`
with strip, bound text `"'10'"` keeps its range while `"'abc'"` is
silently excluded. -/
theorem metavariable_comparison_semantics :
    (∀ (m c : String) (b : Option Nat) (s : String),
      compare_range_match m c (some true) b s
        = compare_range_match m c none b (pyStrip s)) ∧
    (∀ (m c : String) (strip : Option Bool) (b : Option Nat) (s : String),
      pyParseContent strip b s = none →
      compare_range_match m c strip b s = false) ∧
    (∀ (m c : String) (strip : Option Bool) (b : Option Nat) (s : String)
      (v : PyNum), pyParseContent strip b s = some v →
      compare_range_match m c strip b s = metavariable_comparison m c v) ∧
    (∀ (ctx : Ctx) (G : Registry) (S : List Range) (flags : Flags)
      (pid : Option String) (m' : OperandMap), ∃ out,
      evalSingleRanges ctx
        (.mk .METAVARIABLE_COMPARISON pid (some (.map m')) none) G S flags
        = .ok out) ∧
    get_comparison_range_matches "$N" "$N > 5" (some true) none [Ex.r4]
      [Ex.pmN "'10'"] = [Ex.r4] ∧
    get_comparison_range_matches "$N" "$N > 5" (some true) none [Ex.r4]
      [Ex.pmN "'abc'"] = [] := by
  refine ⟨?_, ?_, ?_, ?_, by decide, by decide⟩
  · intro m c b s
    rfl
  · intro m c strip b s h
    simp [compare_range_match, h]
  · intro m c strip b s v h
    simp [compare_range_match, h]
  · intro ctx G S flags pid m'
    exact ⟨get_comparison_range_matches m'.metavariable m'.comparison
      m'.strip m'.base S G.flat, rfl⟩

/-- Witness for C4 at the two scenario texts. -/
theorem metavariable_comparison_semantics_witness :
    pyParseContent (some true) none "'abc'" = none ∧
    compare_range_match "$N" "$N > 5" (some true) none "'abc'" = false ∧
    pyParseContent (some true) none "'10'" = some (PyNum.ofInt 10) ∧
    compare_range_match "$N" "$N > 5" (some true) none "'10'"
      = metavariable_comparison "$N" "$N > 5" (PyNum.ofInt 10) :=
  ⟨by decide,
    metavariable_comparison_semantics.2.1 "$N" "$N > 5" (some true) none
      "'abc'" (by decide),
    by decide,
    metavariable_comparison_semantics.2.2.1 "$N" "$N > 5" (some true) none
      "'10'" (PyNum.ofInt 10) (by decide)⟩

/-- Counterexample to C2 as stated: a fix template referencing a
metavariable not bound by the match does not fail with a KeyError-class
error — a rule with fix `"$X"` and a match binding only `$Y` interpolates
without any error and leaves `$X` unsubstituted in the produced fix. -/
theorem fix_unbound_metavariable_no_error_counterexample :
    interpolate_fix_metavariables Ex.ruleFix Ex.pmFix = .ok (some "$X") := by
  decide

/-- C2 (amended): fix interpolation replaces exactly the metavariable
names bound by this match (no enclosing-match fallback — only the match's
own bindings are consulted) with their bound text, and it never fails: a
fix template referencing a metavariable not bound by that match leaves the
name unsubstituted and the finding is produced without error. -/
theorem interpolate_fix_own_bindings_total :
    (∀ (rule : Rule) (pm : PatternMatch),
      ∃ v, interpolate_fix_metavariables rule pm = .ok v) ∧
    (∀ (rule : Rule) (pm : PatternMatch) (t : String),
      (pm.metavars.map Prod.fst).Nodup → rule.fix = some t →
      interpolate_fix_metavariables rule pm =
        .ok (some (pm.metavars.foldl
          (fun s kv => pyReplace s kv.1 kv.2) t))) := by
  constructor
  · intro rule pm
    cases hfix : rule.fix with
    | none => exact ⟨none, by simp [interpolate_fix_metavariables, hfix]⟩
    | some t =>
      obtain ⟨v, hv⟩ := fixGo_total pm (pm.metavars.map Prod.fst) t
        (fun k hk => hk)
      exact ⟨some v, by simp [interpolate_fix_metavariables, hfix, hv]⟩
  · intro rule pm t hnd hfix
    have hgo := fixGo_keys pm pm.metavars t (fun p hp => lookup_self hnd p hp)
    simp [interpolate_fix_metavariables, hfix, hgo]

/-- Witness for C2 (amended) at a concrete rule and match. -/
theorem interpolate_fix_own_bindings_total_witness :
    (Ex.pmFix.metavars.map Prod.fst).Nodup ∧
    interpolate_fix_metavariables ⟨"msg", some "$Y"⟩ Ex.pmFix
      = .ok (some (Ex.pmFix.metavars.foldl
        (fun s kv => pyReplace s kv.1 kv.2) "$Y")) :=
  ⟨by decide, interpolate_fix_own_bindings_total.2 ⟨"msg", some "$Y"⟩
    Ex.pmFix "$Y" (by decide) rfl⟩

/-- C5: message interpolation resolution — for each metavariable name, the
current match's own binding is preferred; otherwise the binding of the
*first* match (in original input match order) whose range
encloses-or-equals the current match's range is substituted; with no
enclosing binder the literal metavariable name is kept.  The concrete
scenario substitutes the binding of the first enclosing match (range
`[0,100]`) even though a strictly smaller enclosing match (range `[3,7]`)
also binds the name, confirming the first-in-order tie-break. -/
theorem message_interpolation_resolution :
    (∀ (pm : PatternMatch) (name : String) (pms : List PatternMatch)
      (v : String), pm.getMetavariableValue name = some v →
      replaceTextFor pm name pms = .ok v) ∧
    (∀ (pm : PatternMatch) (name : String) (pms : List PatternMatch)
      (q : PatternMatch) (rest : List PatternMatch) (v : String),
      pm.getMetavariableValue name = none →
      pms.filter (fun q' => q'.range.is_range_enclosing_or_eq pm.range)
        = q :: rest →
      q.getMetavariableValue name = some v →
      replaceTextFor pm name pms = .ok v) ∧
    (∀ (pm : PatternMatch) (name : String) (pms : List PatternMatch),
      pm.getMetavariableValue name = none →
      pms.filter (fun q' => q'.range.is_range_enclosing_or_eq pm.range)
        = [] →
      replaceTextFor pm name pms = .ok name) ∧
    (interpolate_message_metavariables Ex.ruleMsg Ex.pmCur
      (buildAllMetavars [Ex.qBig, Ex.pmCur, Ex.qSmall]) = .ok "found big" ∧
     Ex.qBig.range.is_range_enclosing_or_eq Ex.pmCur.range = true ∧
     Ex.qSmall.range.is_range_enclosing_or_eq Ex.pmCur.range = true ∧
     Ex.qSmall.range.stop - Ex.qSmall.range.start
       < Ex.qBig.range.stop - Ex.qBig.range.start) := by
  refine ⟨?_, ?_, ?_, by decide, by decide, by decide, by decide⟩
  · intro pm name pms v h
    simp [replaceTextFor, h]
  · intro pm name pms q rest v h1 h2 h3
    simp [replaceTextFor, h1, h2, h3]
  · intro pm name pms h1 h2
    simp [replaceTextFor, h1, h2]

/-- Witness for C5 at the concrete enclosing-match fallback. -/
theorem message_interpolation_resolution_witness :
    Ex.pmCur.getMetavariableValue "$X" = none ∧
    ([Ex.qBig, Ex.qSmall].filter
      (fun q' => q'.range.is_range_enclosing_or_eq Ex.pmCur.range)
      = [Ex.qBig, Ex.qSmall]) ∧
    Ex.qBig.getMetavariableValue "$X" = some "big" ∧
    replaceTextFor Ex.pmCur "$X" [Ex.qBig, Ex.qSmall] = .ok "big" :=
  ⟨by decide, by decide, by decide,
    message_interpolation_resolution.2.1 Ex.pmCur "$X"
      [Ex.qBig, Ex.qSmall] Ex.qBig [Ex.qSmall] "big" (by decide) (by decide)
      (by decide)⟩

end Semgrep
